import Mathlib

/-!
Verification development for the doc2ai synchronization and conversion
pipeline.  The definitions below are a shallow embedding of the backend
sources (services/conversionService.js, services/monitoringService.js,
services/queueService.js, utils/encryption.js, utils/configParser.js,
converters/baseConverter.js, converters/converterFactory.js,
controllers/conversionController.js, integrations/*).  Pure functions are
translated as Lean functions; the Prisma-backed store is modelled as an
explicit record of lists; asynchronous operations are modelled as explicit
state passing.  Theorems about the claims follow the definitions.
-/

namespace Doc2ai

/-! ## String helpers

Models of the JavaScript string primitives the sources use
(`toLowerCase`, `endsWith`, `String.prototype.match` with a literal
pattern, `path.extname`, `path.basename`, `path.join`, `trim`).
All are written over `List Char` with structural recursion so that they
evaluate inside `decide`/`rfl`. -/

/-- Model of JavaScript `s.toLowerCase()` (ASCII case folding). -/
def lowerStr (s : String) : String := ⟨s.data.map Char.toLower⟩

/-- Model of JavaScript `s.endsWith(suffix)`. -/
def strEndsWith (s suffix : String) : Bool := suffix.data.isSuffixOf s.data

/-- Does `pat` occur as a contiguous subsequence of `l`? -/
def listContainsSeq (pat : List Char) : List Char → Bool
  | [] => pat.isPrefixOf []
  | c :: t => pat.isPrefixOf (c :: t) || listContainsSeq pat t

/-- Model of JavaScript `name.match(new RegExp(pattern))` being truthy, for a
literal (metacharacter-free) pattern: an unanchored substring test.  The
exclusion patterns this repository configures (e.g. `"draft"`) are literal
words, so the substring semantics coincides with the regex semantics. -/
def regexTestLit (pattern s : String) : Bool := listContainsSeq pattern.data s.data

/-- The characters of the final path segment (after the last `/`). -/
def afterLastSlash (l : List Char) : List Char :=
  (l.reverse.takeWhile (fun c => c ≠ '/')).reverse

/-- Model of Node `path.extname(p)`: the suffix of the final path segment
from its last dot, or `""` when there is no dot or the only dot starts the
segment (hidden files). -/
def extname (p : String) : String :=
  let base := afterLastSlash p.data
  let tail := base.reverse.takeWhile (fun c => c ≠ '.')
  if tail.length = base.length then ""
  else if base.length - tail.length - 1 = 0 then ""
  else ⟨'.' :: tail.reverse⟩

/-- Model of Node `path.basename(p, ext)`: the final path segment, with the
suffix `ext` removed when it is a proper suffix. -/
def basenameExt (p ext : String) : String :=
  let base := afterLastSlash p.data
  if ext.data.isSuffixOf base ∧ ext.data.length < base.length then
    ⟨base.take (base.length - ext.data.length)⟩
  else ⟨base⟩

/-- Model of Node `path.join(a, b)` for the simple shapes used here. -/
def pJoin (a b : String) : String := a ++ "/" ++ b

/-- JavaScript whitespace recognised by `String.prototype.trim`
(restricted to the ASCII whitespace the pipeline can encounter). -/
def jsWs (c : Char) : Bool :=
  c = ' ' || c = '\t' || c = '\n' || c = '\r' || c = '\x0b' || c = '\x0c'

/-- Drop trailing characters satisfying `jsWs` (structural recursion). -/
def trimRightL : List Char → List Char
  | [] => []
  | c :: t =>
    let r := trimRightL t
    if r = [] ∧ jsWs c then [] else c :: r

/-- Model of JavaScript `s.trim()`. -/
def trimList (l : List Char) : List Char := trimRightL (l.dropWhile jsWs)

def trimStr (s : String) : String := ⟨trimList s.data⟩

/-! ## Remote files and filtering (monitoringService.syncSource) -/

/-- A normalized remote entry as produced by
`DriveConnector.normalizeFileInfo` (integrations/base/driveConnector.js):
`{id, name, path, size, modifiedTime, checksum, platform}`. -/
structure RemoteFile where
  id : String
  name : String
  path : String
  size : Nat
  checksum : String
  platform : String
deriving DecidableEq, Repr

/-- The filter section of a source's JSON config.  `none` models an absent
or non-array field (the code tests `Array.isArray`). -/
structure SourceFilters where
  extensions : Option (List String)
  excludePatterns : Option (List String)
deriving DecidableEq, Repr

/-- `monitoringService.syncSource`: `Array.isArray(config.filters?.extensions)
? config.filters.extensions : [".docx", ".pdf", ".doc"]`. -/
def effectiveExtensions (f : SourceFilters) : List String :=
  f.extensions.getD [".docx", ".pdf", ".doc"]

/-- `monitoringService.syncSource`: `Array.isArray(config.filters?.excludePatterns)
? config.filters.excludePatterns : []`. -/
def effectiveExcludes (f : SourceFilters) : List String :=
  f.excludePatterns.getD []

/-- The per-file predicate of `monitoringService.syncSource`'s
`files.filter(...)`: keep a file iff its name ends (case-insensitively) with
one of the allowed extensions and matches none of the exclusion patterns. -/
def fileKeep (exts pats : List String) (name : String) : Bool :=
  (exts.any fun ext => strEndsWith (lowerStr name) (lowerStr ext)) &&
  !(pats.any fun p => regexTestLit p name)

/-- `monitoringService.syncSource`'s `filteredFiles`. -/
def filterFiles (f : SourceFilters) (files : List RemoteFile) : List RemoteFile :=
  files.filter (fun file => fileKeep (effectiveExtensions f) (effectiveExcludes f) file.name)

/-! ## Destination validation (utils/configParser.js) -/

/-- The characters rejected by `validateDestinationPath`. -/
def dangerousChars : List Char := ['<', '>', ':', '\"', '|', '?', '*']

/-- Model of `configParser.validateDestinationPath`: trims, rejects empty
strings, `..`, leading `/` or `\`, the dangerous characters and paths over
200 characters; returns the trimmed destination otherwise. -/
def validateDestinationPath (destination : String) : Except String String :=
  if destination = "" then .error "Destination must be a non-empty string"
  else
    let trimmed := trimStr destination
    if trimmed = "" then .error "Destination cannot be empty"
    else if listContainsSeq "..".data trimmed.data then
      .error "Destination cannot contain .."
    else if trimmed.data.head? = some '/' ∨ trimmed.data.head? = some '\\' then
      .error "Destination cannot start with / or \\"
    else if dangerousChars.any (fun ch => trimmed.data.contains ch) then
      .error "Destination cannot contain a dangerous character"
    else if 200 < trimmed.length then
      .error "Destination path too long"
    else .ok trimmed

/-- Model of `configParser.getValidatedDestination`: `config.destination ||
fallback` (an absent or empty destination falls back), then validation. -/
def getValidatedDestination (dest : Option String) (fallback : String) : Except String String :=
  let d := match dest with
    | some s => if s = "" then fallback else s
    | none => fallback
  validateDestinationPath d

/-- Model of the validation performed by `enrichSourceWithConfig` (called
from `getJobById`): the destination is validated only when the config has a
truthy `destination` field. -/
def enrichOk (dest : Option String) : Bool :=
  match dest with
  | some s => if s = "" then true else (validateDestinationPath s).isOk
  | none => true

/-! ## Data model (prisma records) -/

/-- The parts of a source's JSON config the pipeline reads. -/
structure SourceConfig where
  destination : Option String
  sourcePath : Option String
  filters : SourceFilters
deriving DecidableEq, Repr

/-- A `Source` record. -/
structure SourceRec where
  id : Nat
  name : String
  platform : String
  config : SourceConfig
deriving DecidableEq, Repr

/-- The `ConversionJob.status` enum. -/
inductive JobStatus
  | pending
  | processing
  | completed
  | failed
deriving DecidableEq, Repr

/-- A `ConversionJob` record. -/
structure JobRec where
  id : Nat
  sourceId : Nat
  fileName : String
  filePath : String
  fileSize : Option Nat
  status : JobStatus
  progress : Nat
  error : Option String
  outputPath : Option String
deriving DecidableEq, Repr

/-- A `ConvertedFile` index record, created by
`conversionService.processJob` after a successful conversion. -/
structure ConvertedFileRec where
  originalPath : String
  convertedPath : String
  fileName : String
  fileType : String
  platform : String
  checksum : String
deriving DecidableEq, Repr

/-- The durable store, restricted to the records the pipeline touches. -/
structure Db where
  sources : List SourceRec
  jobs : List JobRec
  convertedFiles : List ConvertedFileRec
  nextJobId : Nat
deriving DecidableEq, Repr

def lookupJob (db : Db) (jid : Nat) : Option JobRec :=
  db.jobs.find? (fun j => j.id = jid)

def lookupSource (db : Db) (sid : Nat) : Option SourceRec :=
  db.sources.find? (fun s => s.id = sid)

/-- Prisma `conversionJob.update({where: {id}})`. -/
def updateJob (db : Db) (jid : Nat) (f : JobRec → JobRec) : Db :=
  { db with jobs := db.jobs.map (fun j => if j.id = jid then f j else j) }

/-- `conversionService.createJob`: inserts a fresh job with `status:
"pending"` and returns it. -/
def createJob (db : Db) (sourceId : Nat) (fileName filePath : String)
    (fileSize : Option Nat) : Db × JobRec :=
  let j : JobRec :=
    { id := db.nextJobId, sourceId := sourceId, fileName := fileName,
      filePath := filePath, fileSize := fileSize, status := .pending,
      progress := 0, error := none, outputPath := none }
  ({ db with jobs := db.jobs ++ [j], nextJobId := db.nextJobId + 1 }, j)

/-! ## conversionService.processJob -/

/-- Configured root paths (config/env.js: `storagePath`, `tempPath`,
`exportPath`). -/
structure AppPaths where
  storagePath : String
  tempPath : String
  exportPath : String
deriving DecidableEq, Repr

/-- The environment of one `processJob` execution: the outcome of the
converter call and of the export copy (I/O the service performs). -/
structure ProcEnv where
  convertOk : Bool
  convertChecksum : Option String
  copyOk : Bool
deriving DecidableEq, Repr

/-- The observable outcome of one `processJob` execution: the updated
store, the successive values written to this job's `status` field, the
`console.warn` messages, and whether the promise resolved (`ok = true`) or
rejected. -/
structure ProcResult where
  db : Db
  statusWrites : List JobStatus
  warnings : List String
  ok : Bool
deriving DecidableEq, Repr

/-- The catch-branch of `processJob`: mark the job failed. -/
def markFailed (db : Db) (jid : Nat) (msg : String) : Db :=
  updateJob db jid (fun j => { j with status := .failed, error := some msg })

/-- `ConverterFactory.getConverter` succeeds exactly on `.docx`, `.doc` and
`.pdf` (after lowercasing); any other extension throws. -/
def supportedExtension (ext : String) : Bool :=
  lowerStr ext = ".docx" || lowerStr ext = ".doc" || lowerStr ext = ".pdf"

/-- Model of `conversionService.processJob`, step for step:
`getJobById` (including `enrichSourceWithConfig`), the `processing` update,
extension dispatch via `ConverterFactory`, destination validation, the
conversion, the export copy (whose failure is only warned about), the
`completed` update and the `convertedFile.create` call; any throw lands in
the catch-branch which marks the job failed (swallowing a failing update). -/
def processJob (paths : AppPaths) (env : ProcEnv) (db : Db) (jid : Nat) : ProcResult :=
  match lookupJob db jid with
  | none =>
    -- `getJobById` throws "Conversion job not found"; the catch-branch
    -- update also fails and is swallowed by `.catch(() => null)`
    ⟨db, [], [], false⟩
  | some job =>
    match lookupSource db job.sourceId with
    | none =>
      -- `job.source` is null, so `job.source.config` throws before the
      -- `processing` update; the catch-branch marks the job failed
      ⟨markFailed db jid "Cannot read properties of null", [.failed], [], false⟩
    | some src =>
      if ¬ enrichOk src.config.destination then
        -- `enrichSourceWithConfig` throws inside `getJobById`, before the
        -- `processing` update; the catch-branch marks the job failed
        ⟨markFailed db jid "Invalid destination", [.failed], [], false⟩
      else
        let db1 := updateJob db jid
          (fun j => { j with status := .processing, progress := 10 })
        let ext := lowerStr (extname job.filePath)
        if ¬ supportedExtension ext then
          ⟨markFailed db1 jid ("Unsupported file format: " ++ ext),
            [.processing, .failed], [], false⟩
        else
          -- progress 30 ("Initializing converter")
          let db2 := updateJob db1 jid (fun j => { j with progress := 30 })
          match getValidatedDestination src.config.destination src.name with
          | .error e =>
            ⟨markFailed db2 jid e, [.processing, .failed], [], false⟩
          | .ok dest =>
            let outputFileName := basenameExt job.fileName ext ++ ".md"
            let outputPath := pJoin (pJoin paths.storagePath dest) outputFileName
            -- progress 50 ("Converting file")
            let db3 := updateJob db2 jid (fun j => { j with progress := 50 })
            if ¬ env.convertOk then
              ⟨markFailed db3 jid "Conversion failed", [.processing, .failed], [], false⟩
            else
              -- progress 80 ("Exporting to configured destination")
              let db4 := updateJob db3 jid (fun j => { j with progress := 80 })
              let warns :=
                if env.copyOk then []
                else ["Warning: Failed to export to configured destination"]
              let db5 := updateJob db4 jid (fun j =>
                { j with status := .completed, progress := 100,
                         outputPath := some outputPath })
              let cf : ConvertedFileRec :=
                { originalPath := job.filePath, convertedPath := outputPath,
                  fileName := outputFileName, fileType := ext,
                  platform := src.platform,
                  checksum := env.convertChecksum.getD "unknown" }
              ⟨{ db5 with convertedFiles := db5.convertedFiles ++ [cf] },
                [.processing, .completed], warns, true⟩

/-- The outcome of `cancelJob`. -/
structure CancelResult where
  db : Db
  statusWrites : List JobStatus
  ok : Bool
deriving DecidableEq, Repr

/-- Model of `conversionService.cancelJob`: a guarded update
`where: {id, status: {in: ["pending", "processing"]}}` that sets
`status: "failed"`; when no row matches, prisma throws and the service
rethrows. -/
def cancelJob (db : Db) (jid : Nat) : CancelResult :=
  match lookupJob db jid with
  | some job =>
    if job.status = .pending ∨ job.status = .processing then
      ⟨updateJob db jid (fun j =>
          { j with status := .failed, error := some "Cancelled by user" }),
        [.failed], true⟩
    else ⟨db, [], false⟩
  | none => ⟨db, [], false⟩

/-! ## conversionController.retryJob -/

inductive RetryOutcome
  | notFound
  | invalidConfig
  | preconditionFailed
  | started (newJob : JobRec)
deriving DecidableEq, Repr

structure RetryResult where
  db : Db
  outcome : RetryOutcome
deriving DecidableEq, Repr

/-- The enrichment step inside `conversionService.getJobById`: the job is
fetched with its `source` relation included, and when that relation is
present (`if (job.source)`) `enrichSourceWithConfig` parses the source
config and validates its `destination`, throwing on an invalid one; a job
without a source relation is returned unenriched. -/
def jobEnrichOk (db : Db) (job : JobRec) : Bool :=
  match lookupSource db job.sourceId with
  | none => true
  | some src => enrichOk src.config.destination

/-- Model of `conversionController.retryJob`'s synchronous effect: fetch
the job via `conversionService.getJobById` — which throws if the job does
not exist or if its source's configured destination fails validation, both
turned into a 500 ("Failed to retry job") by the controller's `catch`,
creating nothing — then answer 400 ("Can only retry failed jobs") unless
the status is `failed`, and otherwise create a fresh job via
`conversionService.createJob` with the same `sourceId`, `fileName`,
`filePath` and `fileSize`.  (The controller then fires `processJob` on the
*new* job id asynchronously; that execution is a separate queue step,
modelled by `processJob`.) -/
def retryJob (db : Db) (jid : Nat) : RetryResult :=
  match lookupJob db jid with
  | none => ⟨db, .notFound⟩
  | some job =>
    if ¬ jobEnrichOk db job then ⟨db, .invalidConfig⟩
    else if job.status ≠ .failed then ⟨db, .preconditionFailed⟩
    else
      let p := createJob db job.sourceId job.fileName job.filePath job.fileSize
      ⟨p.1, .started p.2⟩

/-! ## queueService (bull) -/

/-- `queueService` `defaultJobOptions.attempts`. -/
def bullAttempts : Nat := 3

/-- `queueService` `defaultJobOptions.backoff.delay` (milliseconds). -/
def bullBackoffDelay : Nat := 2000

/-- Modelled from the spec of the bull library (an external dependency):
its builtin exponential backoff waits `delay * 2 ^ (attemptsMade - 1)`
milliseconds before re-attempting a job that has already been attempted
`attemptsMade` times. -/
def backoffDelay (delay attemptsMade : Nat) : Nat :=
  delay * 2 ^ (attemptsMade - 1)

/-- The outcome of handing one conversion job to the bull queue: the final
store, every `status` value persisted to the job record across all
attempts, the number of attempts made, the backoff delays waited, and
whether some attempt succeeded. -/
structure QueueResult where
  db : Db
  statusWrites : List JobStatus
  attemptsMade : Nat
  delays : List Nat
  succeeded : Bool
deriving DecidableEq, Repr

/-- Modelled from the spec of the bull library combined with
`queueService.startProcessing`: the processor calls
`conversionService.processJob` and rethrows any error "pour que Bull gère
les retries"; bull re-attempts a failed job while fewer than `attempts`
attempts have been made, waiting the exponential backoff delay in between.
`envOf k` is the I/O environment of the `k`-th attempt (1-based);
`made` counts attempts already made and `fuel` the attempts still
allowed. -/
def queueRunAux (paths : AppPaths) (envOf : Nat → ProcEnv) (jid : Nat) :
    Nat → Nat → Db → QueueResult
  | _, 0, db => ⟨db, [], 0, [], false⟩
  | made, fuel + 1, db =>
    let r := processJob paths (envOf (made + 1)) db jid
    if r.ok then ⟨r.db, r.statusWrites, made + 1, [], true⟩
    else if fuel = 0 then ⟨r.db, r.statusWrites, made + 1, [], false⟩
    else
      let rest := queueRunAux paths envOf jid (made + 1) fuel r.db
      ⟨rest.db, r.statusWrites ++ rest.statusWrites, rest.attemptsMade,
        backoffDelay bullBackoffDelay (made + 1) :: rest.delays,
        rest.succeeded⟩

/-- Hand one job to the queue under `defaultJobOptions` (`attempts: 3`,
exponential backoff with 2000 ms base delay). -/
def queueProcessJob (paths : AppPaths) (envOf : Nat → ProcEnv) (db : Db)
    (jid : Nat) : QueueResult :=
  queueRunAux paths envOf jid 0 bullAttempts db

/-! ## monitoringService sync pass -/

/-- Model of `googledriveConnector.downloadFile`: the remote bytes are
streamed to `path.join(destinationDir, fileName)` where `fileName` is the
remote file's own name, and that local path is returned.  (For
Google-native formats an export extension replaces the original one; not
modelled.)  `destinationDir` is `config.tempPath` at the call site. -/
def connectorDownloadPath (tempDir : String) (f : RemoteFile) : String :=
  pJoin tempDir f.name

/-- Model of `monitoringService.processFileChange`: look the file up in the
`ConvertedFile` index by `(originalPath = file.path, platform =
file.platform || "unknown")`; when an entry with a matching checksum
exists, skip; otherwise download to the temp dir, create a pending
`ConversionJob` for the downloaded path and enqueue it. -/
def processFileChange (paths : AppPaths) (db : Db) (sourceId : Nat)
    (f : RemoteFile) : Db × Option JobRec :=
  let platformKey := if f.platform = "" then "unknown" else f.platform
  let existing := db.convertedFiles.find?
    (fun cf => cf.originalPath = f.path ∧ cf.platform = platformKey)
  let changed : Bool :=
    match existing with
    | some cf => cf.checksum != f.checksum
    | none => true
  if changed then
    let tempPath := connectorDownloadPath paths.tempPath f
    let p := createJob db sourceId f.name tempPath (some f.size)
    (p.1, some p.2)
  else (db, none)

/-- The outcome of one sync pass over one source. -/
structure SyncResult where
  db : Db
  jobsCreated : List JobRec
  processedCount : Nat
deriving DecidableEq, Repr

/-- Model of the per-source body of `monitoringService.syncSource`: list
the remote entries, filter them by the configured extensions and exclusion
patterns, and run `processFileChange` on each survivor in listing order.
`processedCount` is the count reported by the success `SyncLog`
(`Processed N files`). -/
def syncPass (paths : AppPaths) (db : Db) (src : SourceRec)
    (files : List RemoteFile) : SyncResult :=
  let filtered := filterFiles src.config.filters files
  let r := filtered.foldl
    (fun (acc : Db × List JobRec) f =>
      let s := processFileChange paths acc.1 src.id f
      (s.1, acc.2 ++ s.2.toList))
    (db, [])
  ⟨r.1, r.2, filtered.length⟩

/-! ## JSON (the platform's `JSON.stringify` / `JSON.parse`)

`utils/encryption.js` serializes non-string payloads with `JSON.stringify`
before encrypting, and `decryptCredentials` tries `JSON.parse` on the
decrypted text, falling back to the raw string.  The model below covers
the full JSON grammar: `null`, booleans, numbers, strings with the JSON
escape sequences, arrays and objects.  A numeric literal is kept verbatim
as its source text (so exact decimal syntax is preserved; the JS
canonicalization of equal numbers written differently, such as `1e2`
versus `100`, is not modelled).  `Json` is a mutual inductive family so
that the serializer is structurally recursive. -/

mutual
inductive Json
  | null
  | bool (b : Bool)
  | num (lit : String)
  | str (s : String)
  | arr (elems : JsonList)
  | obj (members : JsonMembers)

inductive JsonList
  | nil
  | cons (hd : Json) (tl : JsonList)

inductive JsonMembers
  | nil
  | cons (key : String) (val : Json) (tl : JsonMembers)
end

def JsonList.ofList : List Json → JsonList
  | [] => .nil
  | j :: t => .cons j (JsonList.ofList t)

def JsonMembers.ofList : List (String × Json) → JsonMembers
  | [] => .nil
  | (k, v) :: t => .cons k v (JsonMembers.ofList t)

/-- Whitespace `JSON.parse` skips between tokens. -/
def jsonWsChar (c : Char) : Bool := c = ' ' || c = '\t' || c = '\n' || c = '\r'

def skipWs (l : List Char) : List Char := l.dropWhile jsonWsChar

def hexVal (c : Char) : Option Nat :=
  if '0' ≤ c ∧ c ≤ '9' then some (c.toNat - 48)
  else if 'a' ≤ c ∧ c ≤ 'f' then some (c.toNat - 87)
  else if 'A' ≤ c ∧ c ≤ 'F' then some (c.toNat - 55)
  else none

/-- The body of a JSON string literal after the opening quote: unescapes
`\" \\ \/ \b \f \n \r \t \uXXXX`, rejects unescaped control characters,
and returns the decoded characters together with the text after the
closing quote. -/
def parseStringContent : List Char → Option (List Char × List Char)
  | [] => none
  | '"' :: r => some ([], r)
  | '\\' :: esc =>
    match esc with
    | 'u' :: h1 :: h2 :: h3 :: h4 :: r =>
      match hexVal h1, hexVal h2, hexVal h3, hexVal h4 with
      | some a, some b, some c, some d =>
        match parseStringContent r with
        | some (cs, rest) =>
          some (Char.ofNat (((a * 16 + b) * 16 + c) * 16 + d) :: cs, rest)
        | none => none
      | _, _, _, _ => none
    | e :: r =>
      let c? : Option Char :=
        if e = '"' then some '"'
        else if e = '\\' then some '\\'
        else if e = '/' then some '/'
        else if e = 'b' then some '\x08'
        else if e = 'f' then some '\x0c'
        else if e = 'n' then some '\n'
        else if e = 'r' then some '\r'
        else if e = 't' then some '\t'
        else none
      match c?, parseStringContent r with
      | some c, some (cs, rest) => some (c :: cs, rest)
      | _, _ => none
    | [] => none
  | c :: r =>
    if c.toNat < 32 then none
    else
      match parseStringContent r with
      | some (cs, rest) => some (c :: cs, rest)
      | none => none

/-- The optional fraction part of a JSON number (`.` followed by at least
one digit); returns the consumed literal characters and the rest. -/
def parseFrac (l : List Char) : Option (List Char × List Char) :=
  match l with
  | '.' :: r =>
    let ds := r.takeWhile Char.isDigit
    if ds = [] then none else some ('.' :: ds, r.dropWhile Char.isDigit)
  | _ => some ([], l)

/-- The optional exponent part of a JSON number (`e`/`E`, optional sign,
at least one digit). -/
def parseExp (l : List Char) : Option (List Char × List Char) :=
  match l with
  | e :: r =>
    if e = 'e' ∨ e = 'E' then
      let p : List Char × List Char :=
        match r with
        | '+' :: r2 => (['+'], r2)
        | '-' :: r2 => (['-'], r2)
        | _ => ([], r)
      let ds := p.2.takeWhile Char.isDigit
      if ds = [] then none else some (e :: (p.1 ++ ds), p.2.dropWhile Char.isDigit)
    else some ([], l)
  | [] => some ([], [])

/-- A JSON number literal: optional `-`, an integer part with no leading
zero, optional fraction and exponent; returns the literal text and the
rest. -/
def parseNumLit (l : List Char) : Option (List Char × List Char) :=
  let s : List Char × List Char :=
    match l with
    | '-' :: r => (['-'], r)
    | _ => ([], l)
  match s.2 with
  | [] => none
  | c :: r =>
    let ip? : Option (List Char × List Char) :=
      if c = '0' then some ([c], r)
      else if c.isDigit then some (c :: r.takeWhile Char.isDigit, r.dropWhile Char.isDigit)
      else none
    match ip? with
    | none => none
    | some (ip, r1) =>
      match parseFrac r1 with
      | none => none
      | some (fp, r2) =>
        match parseExp r2 with
        | none => none
        | some (ep, r3) => some (s.1 ++ ip ++ fp ++ ep, r3)

/-- If `l` starts with the keyword `kw`, the text after it. -/
def keywordAfter (kw : String) (l : List Char) : Option (List Char) :=
  if l.take kw.length = kw.data then some (l.drop kw.length) else none

/-- Parser mode: a value, or the inside of an array/object with the
elements already parsed. -/
inductive PState
  | value
  | arrFirst
  | arrNext (acc : List Json)
  | objFirst
  | objNext (acc : List (String × Json))

/-- The recursive-descent JSON parser.  Each recursive call either follows
an opening bracket or consumes at least one parsed value, so a fuel linear
in the input length (supplied by `jsonParse`) never runs out on inputs of
that length; exhausted fuel answers `none` like a parse error. -/
def parseJ : Nat → PState → List Char → Option (Json × List Char)
  | 0, _, _ => none
  | fuel + 1, .value, l =>
    let l1 := skipWs l
    match keywordAfter "null" l1 with
    | some r => some (.null, r)
    | none =>
    match keywordAfter "true" l1 with
    | some r => some (.bool true, r)
    | none =>
    match keywordAfter "false" l1 with
    | some r => some (.bool false, r)
    | none =>
    match l1 with
    | '"' :: r =>
      match parseStringContent r with
      | some (cs, rest) => some (.str ⟨cs⟩, rest)
      | none => none
    | '[' :: r => parseJ fuel .arrFirst r
    | '\x7b' :: r => parseJ fuel .objFirst r
    | l2 =>
      match parseNumLit l2 with
      | some (lit, rest) => some (.num ⟨lit⟩, rest)
      | none => none
  | fuel + 1, .arrFirst, l =>
    match skipWs l with
    | ']' :: r => some (.arr .nil, r)
    | l2 =>
      match parseJ fuel .value l2 with
      | some (j, rest) => parseJ fuel (.arrNext [j]) rest
      | none => none
  | fuel + 1, .arrNext acc, l =>
    match skipWs l with
    | ']' :: r => some (.arr (JsonList.ofList acc), r)
    | ',' :: r =>
      match parseJ fuel .value r with
      | some (j, rest) => parseJ fuel (.arrNext (acc ++ [j])) rest
      | none => none
    | _ => none
  | fuel + 1, .objFirst, l =>
    match skipWs l with
    | '\x7d' :: r => some (.obj .nil, r)
    | '"' :: r =>
      match parseStringContent r with
      | some (kcs, r1) =>
        match skipWs r1 with
        | ':' :: r2 =>
          match parseJ fuel .value r2 with
          | some (j, rest) => parseJ fuel (.objNext [(⟨kcs⟩, j)]) rest
          | none => none
        | _ => none
      | none => none
    | _ => none
  | fuel + 1, .objNext acc, l =>
    match skipWs l with
    | '\x7d' :: r => some (.obj (JsonMembers.ofList acc), r)
    | ',' :: r =>
      match skipWs r with
      | '"' :: r1 =>
        match parseStringContent r1 with
        | some (kcs, r2) =>
          match skipWs r2 with
          | ':' :: r3 =>
            match parseJ fuel .value r3 with
            | some (j, rest) => parseJ fuel (.objNext (acc ++ [(⟨kcs⟩, j)])) rest
            | none => none
          | _ => none
        | none => none
      | _ => none
    | _ => none

/-- Model of `JSON.parse`: parse one value and require only trailing
whitespace after it; any parse failure is `none`, matching the `catch`
fallback in `decryptCredentials`. -/
def jsonParse (s : String) : Option Json :=
  match parseJ (3 * s.data.length + 8) .value s.data with
  | some (j, rest) => if skipWs rest = [] then some j else none
  | none => none

def hexDigit (n : Nat) : Char :=
  if n < 10 then Char.ofNat (48 + n) else Char.ofNat (87 + n)

/-- `JSON.stringify`'s escaping of one string character. -/
def escapeChar (c : Char) : List Char :=
  if c = '"' then ['\\', '"']
  else if c = '\\' then ['\\', '\\']
  else if c = '\x08' then ['\\', 'b']
  else if c = '\x0c' then ['\\', 'f']
  else if c = '\n' then ['\\', 'n']
  else if c = '\r' then ['\\', 'r']
  else if c = '\t' then ['\\', 't']
  else if c.toNat < 32 then
    '\\' :: 'u' :: '0' :: '0' :: hexDigit (c.toNat / 16) :: [hexDigit (c.toNat % 16)]
  else [c]

def escapeStr (s : String) : List Char :=
  s.data.foldr (fun c acc => escapeChar c ++ acc) []

mutual
/-- Model of `JSON.stringify` on a value (no indent argument: members and
elements are joined by a bare comma, keys by a bare colon, as the call in
`encryptCredentials` does). -/
def strfyV : Json → List Char
  | .null => "null".data
  | .bool b => if b then "true".data else "false".data
  | .num lit => lit.data
  | .str s => '"' :: (escapeStr s ++ ['"'])
  | .arr js => '[' :: (strfyL js ++ [']'])
  | .obj ms => '\x7b' :: (strfyM ms ++ ['\x7d'])

def strfyL : JsonList → List Char
  | .nil => []
  | .cons j .nil => strfyV j
  | .cons j tl => strfyV j ++ ',' :: strfyL tl

def strfyM : JsonMembers → List Char
  | .nil => []
  | .cons k v .nil => '"' :: (escapeStr k ++ '"' :: ':' :: strfyV v)
  | .cons k v tl =>
    ('"' :: (escapeStr k ++ '"' :: ':' :: strfyV v)) ++ ',' :: strfyM tl
end

def jsonStringify (j : Json) : String := ⟨strfyV j⟩

/-! ## Credential cipher (utils/encryption.js)

`encryptCredentials` builds `base64(iv ++ authTag ++ ciphertext)` and
`decryptCredentials` splits the blob the same way.  The base64 transport
encoding is a bijection and is elided: blobs are byte lists.

Crucially, the source calls `crypto.createCipher(ALGORITHM, key, iv)` and
`crypto.createDecipher(ALGORITHM, key, iv)`.  In Node's API the third
parameter of `createCipher`/`createDecipher` is an *options* object, and
both derive the actual cipher key and IV deterministically from the
password alone (`EVP_BytesToKey`); the randomly generated `iv` stored in
the blob is therefore never used by either direction.  The model mirrors
this: the keystream and the authentication tag depend only on the
password, never on the stored IV bytes. -/

/-- Model of the `EVP_BytesToKey`-style key derivation performed by
`createCipher`/`createDecipher`: a deterministic digest of the password. -/
def deriveKey (password : String) : Nat :=
  password.data.foldl (fun a c => (a * 131 + c.toNat) % 4294967296) 5381

/-- Byte `i` of the keystream for derived key `key` (CTR-style stream). -/
def ksByte (key i : Nat) : Nat := (key * (i + 3) + 7 * i + 13) % 256

def encBytesAux (key : Nat) : Nat → List Nat → List Nat
  | _, [] => []
  | i, b :: t => (b ^^^ ksByte key i) :: encBytesAux key (i + 1) t

/-- The cipher core (`cipher.update`/`cipher.final` resp.
`decipher.update`/`decipher.final`): XOR with the password-derived
keystream; encryption and decryption are the same involution. -/
def encBytes (key : Nat) (bs : List Nat) : List Nat := encBytesAux key 0 bs

/-- Model of the GCM authentication tag (`cipher.getAuthTag`): 16 bytes
derived from the password-derived key and the ciphertext. -/
def macTag (key : Nat) (ct : List Nat) : List Nat :=
  let h := ct.foldl (fun a b => (a * 257 + b + 1) % 18446744073709551616) (key + 1)
  (List.range 16).map (fun i => h / 256 ^ i % 256)

def toBytes (s : String) : List Nat := s.data.map Char.toNat

def ofBytes (bs : List Nat) : String := ⟨bs.map Char.ofNat⟩

/-- A credential payload as `encryptCredentials` distinguishes it:
`typeof data === "string"` keeps the string, anything else is
JSON-serialized. -/
inductive CredData
  | str (s : String)
  | json (j : Json)

/-- `const text = typeof data === "string" ? data : JSON.stringify(data)`. -/
def credText : CredData → String
  | .str s => s
  | .json j => jsonStringify j

/-- Model of `encryptCredentials`: serialize, encrypt under the
password-derived keystream, and emit `iv ++ authTag ++ ciphertext`.
`iv` models the 12 random bytes from `crypto.randomBytes(IV_LENGTH)`. -/
def encryptCredentials (key : String) (iv : List Nat) (data : CredData) : List Nat :=
  let k := deriveKey key
  let ct := encBytes k (toBytes (credText data))
  iv ++ (macTag k ct ++ ct)

/-- Model of `decryptCredentials`: reject an empty blob, split off the
first 12 bytes (the stored IV, which `createDecipher` then ignores) and
the next 16 (the auth tag), check the tag against the ciphertext
(`decipher.final` throws on mismatch, caught and rethrown as
`"Failed to decrypt credentials"`), decrypt with the password-derived
keystream, and try `JSON.parse` on the result, falling back to the raw
string. -/
def decryptCredentials (key : String) (blob : List Nat) : Except String CredData :=
  if blob = [] then .error "Failed to decrypt credentials"
  else
    let tag := (blob.drop 12).take 16
    let ct := (blob.drop 12).drop 16
    let k := deriveKey key
    if tag = macTag k ct then
      let s := ofBytes (encBytes k ct)
      match jsonParse s with
      | some j => .ok (.json j)
      | none => .ok (.str s)
    else .error "Failed to decrypt credentials"

/-! ## baseConverter.cleanMarkdown -/

def isSpTab (c : Char) : Bool := c = ' ' || c = '\t'

/-- Emit a pending run of `k` newlines as the replacement
`/\n{3,}/g → "\n\n"` dictates: runs of three or more collapse to two. -/
def emitNl (k : Nat) (rest : List Char) : List Char :=
  (if 3 ≤ k then ['\n', '\n'] else List.replicate k '\n') ++ rest

/-- Scanner for `markdown.replace(/\n{3,}/g, "\n\n")`: `k` counts the
newlines of the current run. -/
def collapseAux : Nat → List Char → List Char
  | k, [] => emitNl k []
  | k, c :: t =>
    if c = '\n' then collapseAux (k + 1) t
    else emitNl k (c :: collapseAux 0 t)

def collapseNl (l : List Char) : List Char := collapseAux 0 l

/-- Scanner for `cleaned.replace(/[ \t]+$/gm, '')`: `pend` holds the run of
spaces/tabs not yet known to touch a line end; it is dropped before a
newline or the end of the string and kept otherwise. -/
def stripAux : List Char → List Char → List Char
  | _, [] => []
  | pend, c :: t =>
    if isSpTab c then stripAux (pend ++ [c]) t
    else if c = '\n' then '\n' :: stripAux [] t
    else pend ++ c :: stripAux [] t

def stripTrailing (l : List Char) : List Char := stripAux [] l

/-- Model of `BaseConverter.cleanMarkdown`: the falsy check, the newline
collapse, the per-line trailing-whitespace strip, `trim()`, and the final
"ensure one trailing newline" step, in source order. -/
def cleanMarkList (l : List Char) : List Char :=
  if l = [] then []
  else
    let c := trimList (stripTrailing (collapseNl l))
    if c = [] then c
    else if c.getLast? = some '\n' then c
    else c ++ ['\n']

def cleanMarkdown (s : String) : String := ⟨cleanMarkList s.data⟩

/-- `noTriple j l`: scanning `l` after `j` immediately-preceding newlines,
no run of three or more consecutive newlines occurs. -/
def noTriple : Nat → List Char → Bool
  | _, [] => true
  | j, c :: t =>
    if c = '\n' then (if 2 ≤ j then false else noTriple (j + 1) t)
    else noTriple 0 t

/-- `okTrail l`: no line of `l` ends in a space or tab (no space/tab
immediately before a newline or at the end of the string). -/
def okTrail : List Char → Bool
  | [] => true
  | [c] => !isSpTab c
  | c :: d :: t => (!isSpTab c || !(d = '\n')) && okTrail (d :: t)

/-- Whether a list's last character is not JavaScript whitespace. -/
def lastNotWs (l : List Char) : Bool :=
  match l.getLast? with
  | some c => !jsWs c
  | none => true

/-- The side condition under which `decryptCredentials` undoes
`encryptCredentials` on the serialization level: a string payload must not
itself be a parseable JSON text (otherwise the `JSON.parse` fallback in
`decryptCredentials` rewrites it), and an object payload must survive the
stringify/parse cycle. -/
def roundtripCond : CredData → Prop
  | .str s => jsonParse s = none
  | .json j => jsonParse (jsonStringify j) = some j

/-! ## Concrete fixtures used by witnesses and counterexamples -/

def exPaths : AppPaths := ⟨"/storage", "/temp", "/exports"⟩

def exFilters : SourceFilters := ⟨some [".docx", ".pdf"], some ["draft"]⟩

def exSource : SourceRec := ⟨1, "mysource", "googledrive", ⟨some "docs", some "/", exFilters⟩⟩

def exJob (st : JobStatus) : JobRec :=
  ⟨1, 1, "report.docx", "/temp/report.docx", some 100, st, 0, none, none⟩

def exDb (st : JobStatus) : Db := ⟨[exSource], [exJob st], [], 2⟩

/-- A source whose configured destination `"a:b"` contains `':'`, one of
`validateDestinationPath`'s dangerous characters, so enrichment fails. -/
def exSourceBad : SourceRec := ⟨1, "badsource", "googledrive", ⟨some "a:b", some "/", exFilters⟩⟩

/-- A store holding `exSourceBad` and one `failed` job referencing it. -/
def exDbBad : Db := ⟨[exSourceBad], [exJob .failed], [], 2⟩

/-- Environment of a fully successful `processJob` execution. -/
def exEnvOk : ProcEnv := ⟨true, some "mdsum", true⟩

/-- Environment in which the converter call fails (a `ConversionError`). -/
def exEnvConvFail : ProcEnv := ⟨false, none, true⟩

def exFileA : RemoteFile := ⟨"fidA", "report.docx", "/report.docx", 100, "ck-a", "googledrive"⟩

def exFileB : RemoteFile := ⟨"fidB", "report_draft.docx", "/report_draft.docx", 120, "ck-b", "googledrive"⟩

/-- Store before the first sync pass of the C2 scenario. -/
def c2Db0 : Db := ⟨[exSource], [], [], 1⟩

/-- First sync pass over the remote folder `[report.docx]`. -/
def c2Pass1 : SyncResult := syncPass exPaths c2Db0 exSource [exFileA]

/-- The queue then processes the created job successfully. -/
def c2AfterProc : Db := (processJob exPaths exEnvOk c2Pass1.db 1).db

/-- Second sync pass over the unchanged remote folder. -/
def c2Pass2 : SyncResult := syncPass exPaths c2AfterProc exSource [exFileA]

/-! # Theorems -/

/-! ## Credential cipher lemmas -/

theorem encBytesAux_involutive (key : Nat) (bs : List Nat) :
    ∀ i, encBytesAux key i (encBytesAux key i bs) = bs := by
  induction bs with
  | nil => intro i; rfl
  | cons b t ih => intro i; simp [encBytesAux, Nat.xor_cancel_right, ih]

theorem encBytes_involutive (key : Nat) (bs : List Nat) :
    encBytes key (encBytes key bs) = bs :=
  encBytesAux_involutive key bs 0

theorem macTag_length (key : Nat) (ct : List Nat) : (macTag key ct).length = 16 := by
  simp [macTag]

theorem stringMkData (s : String) : String.mk s.data = s := by
  cases s
  rfl

theorem ofBytes_toBytes (s : String) : ofBytes (toBytes s) = s := by
  unfold ofBytes toBytes
  rw [List.map_map]
  have h : s.data.map (Char.ofNat ∘ Char.toNat) = s.data := by
    simp [Function.comp_def, Char.ofNat_toNat]
  rw [h, stringMkData]

/-- C4 (amended): for a payload that survives the JSON serialization cycle
— any object payload with a faithful stringify/parse roundtrip, and any
string payload that is not itself valid JSON — `decryptCredentials`
inverts `encryptCredentials`, for every key and every 12-byte random IV. -/
theorem decrypt_encrypt_id (key : String) (iv : List Nat) (x : CredData)
    (hiv : iv.length = 12) (hx : roundtripCond x) :
    decryptCredentials key (encryptCredentials key iv x) = .ok x := by
  unfold encryptCredentials decryptCredentials
  set k := deriveKey key with hk
  set ct := encBytes k (toBytes (credText x)) with hct
  set tg := macTag k ct with htg
  have hne : iv ++ (tg ++ ct) ≠ [] := by
    intro h
    have := congrArg List.length h
    simp [hiv] at this
  rw [if_neg hne]
  have hdrop : (iv ++ (tg ++ ct)).drop 12 = tg ++ ct := by
    rw [show (12 : Nat) = iv.length from hiv.symm]
    exact List.drop_left _ _
  have htake : (tg ++ ct).take 16 = tg := by
    rw [show (16 : Nat) = tg.length from (macTag_length k ct).symm]
    exact List.take_left _ _
  have hdrop2 : (tg ++ ct).drop 16 = ct := by
    rw [show (16 : Nat) = tg.length from (macTag_length k ct).symm]
    exact List.drop_left _ _
  rw [hdrop, htake, hdrop2, if_pos rfl, hct, encBytes_involutive, ofBytes_toBytes]
  cases x with
  | str s =>
    have hps : jsonParse s = none := hx
    simp [credText, hps]
  | json j =>
    have hpj : jsonParse (jsonStringify j) = some j := hx
    simp [credText, hpj]

/-- C4 witness: concrete roundtrips through the cipher, for an object
payload (a credentials record with a string and a numeric field) and for
a non-JSON string payload. -/
theorem decrypt_encrypt_id_witness :
    (List.replicate 12 0).length = 12 ∧
    roundtripCond (.json (.obj (.cons "user" (.str "alice") (.cons "n" (.num "42") .nil)))) ∧
    decryptCredentials "k" (encryptCredentials "k" (List.replicate 12 0)
        (.json (.obj (.cons "user" (.str "alice") (.cons "n" (.num "42") .nil))))) =
      .ok (.json (.obj (.cons "user" (.str "alice") (.cons "n" (.num "42") .nil)))) ∧
    roundtripCond (.str "hello") ∧
    decryptCredentials "k" (encryptCredentials "k" (List.replicate 12 0) (.str "hello")) =
      .ok (.str "hello") :=
  ⟨by decide, by exact rfl,
    decrypt_encrypt_id "k" (List.replicate 12 0)
      (.json (.obj (.cons "user" (.str "alice") (.cons "n" (.num "42") .nil))))
      (by decide) (by exact rfl),
    by exact rfl,
    decrypt_encrypt_id "k" (List.replicate 12 0) (.str "hello") (by decide) (by exact rfl)⟩

/-- C4 counterexample: the claim "decrypt(encrypt(x)) returns x for every
credential payload x" fails for the string payload `"true"`: the decrypted
text parses as JSON, so `decryptCredentials` returns the boolean `true`
instead of the original string. -/
theorem decrypt_encrypt_not_id :
    decryptCredentials "k" (encryptCredentials "k" (List.replicate 12 0) (.str "true")) =
      .ok (.json (.bool true)) ∧
    CredData.json (.bool true) ≠ CredData.str "true" :=
  ⟨rfl, fun h => CredData.noConfusion h⟩

/-- C5: evaluating the code at the failing input.  A blob whose stored-IV
bytes were tampered with after encryption decrypts *successfully* — the
stored IV is ignored by `createDecipher`, which derives key and IV from
the password — so `decryptCredentials` returns a value for a tampered
blob instead of raising an integrity error. -/
theorem iv_tamper_returns_value :
    (encryptCredentials "secret" (List.replicate 12 0) (.str "credential-value")).set 0 255 ≠
      encryptCredentials "secret" (List.replicate 12 0) (.str "credential-value") ∧
    decryptCredentials "secret"
        ((encryptCredentials "secret" (List.replicate 12 0) (.str "credential-value")).set 0 255) =
      .ok (.str "credential-value") :=
  ⟨by decide, rfl⟩

/-! ## conversionController.retryJob (C9) -/

/-- C9 (amended): `retryJob`'s behaviour given the stored job record.  If
the job's source config fails destination validation, `getJobById` throws
before the controller ever checks the status, the controller answers 500
("Failed to retry job") and creates nothing — even when the job is
`failed`.  Otherwise a non-`failed` job is rejected with the
state-precondition 400 ("Can only retry failed jobs") and creates
nothing, and a `failed` job yields a fresh pending `ConversionJob`
carrying the same `sourceId`, `fileName`, `filePath` and `fileSize`,
leaving every existing job record (the old one included) untouched. -/
theorem retryJob_characterization (db : Db) (jid : Nat) (job : JobRec)
    (h : lookupJob db jid = some job) :
    (jobEnrichOk db job = false → retryJob db jid = ⟨db, .invalidConfig⟩) ∧
    (jobEnrichOk db job = true → job.status ≠ .failed →
      retryJob db jid = ⟨db, .preconditionFailed⟩) ∧
    (jobEnrichOk db job = true → job.status = .failed →
      retryJob db jid =
        ⟨{ db with
            jobs := db.jobs ++
              [⟨db.nextJobId, job.sourceId, job.fileName, job.filePath,
                job.fileSize, .pending, 0, none, none⟩],
            nextJobId := db.nextJobId + 1 },
          .started ⟨db.nextJobId, job.sourceId, job.fileName, job.filePath,
            job.fileSize, .pending, 0, none, none⟩⟩) := by
  unfold retryJob
  rw [h]
  refine ⟨?_, ?_, ?_⟩
  · intro he
    simp [he]
  · intro he hs
    simp [he, hs]
  · intro he hs
    simp [he, hs, createJob]

/-- C9 witness: a concrete retry of a `failed` job with a valid source
destination, creating the fresh pending job. -/
theorem retryJob_characterization_witness :
    lookupJob (exDb .failed) 1 = some (exJob .failed) ∧
    jobEnrichOk (exDb .failed) (exJob .failed) = true ∧
    (exJob .failed).status = .failed ∧
    retryJob (exDb .failed) 1 =
      ⟨{ exDb .failed with
          jobs := (exDb .failed).jobs ++
            [⟨(exDb .failed).nextJobId, (exJob .failed).sourceId, (exJob .failed).fileName,
              (exJob .failed).filePath, (exJob .failed).fileSize, .pending, 0, none, none⟩],
          nextJobId := (exDb .failed).nextJobId + 1 },
        .started ⟨(exDb .failed).nextJobId, (exJob .failed).sourceId, (exJob .failed).fileName,
          (exJob .failed).filePath, (exJob .failed).fileSize, .pending, 0, none, none⟩⟩ :=
  ⟨rfl, by decide, rfl,
    (retryJob_characterization (exDb .failed) 1 (exJob .failed) rfl).2.2 (by decide) rfl⟩

/-- C9 counterexample: a `failed` job whose source's configured
destination is invalid (here `"a:b"`, containing the forbidden `':'`) is
not retried: `enrichSourceWithConfig` inside `getJobById` throws, the
controller answers 500, and no fresh job is created — refuting "called on
a 'failed' job, it creates a fresh ConversionJob referencing the same
file". -/
theorem retry_failed_invalid_destination :
    lookupJob exDbBad 1 = some (exJob .failed) ∧
    (exJob .failed).status = .failed ∧
    retryJob exDbBad 1 = ⟨exDbBad, .invalidConfig⟩ :=
  ⟨rfl, rfl, by decide⟩

/-! ## Filtering (C8) -/

/-- C8: a remote file survives `syncSource`'s filtering iff its name ends
(case-insensitively) with one of the allowed extensions and matches none
of the exclusion patterns; and the concrete scenario — extensions
`[".docx", ".pdf"]`, exclusion `["draft"]`, remote folder
`[report.docx, report_draft.docx]` — creates exactly one pending
`ConversionJob`, for `report.docx`. -/
theorem filtering_characterization_and_scenario :
    (∀ (f : SourceFilters) (files : List RemoteFile) (file : RemoteFile),
      file ∈ filterFiles f files ↔
        file ∈ files ∧
          (∃ ext ∈ effectiveExtensions f,
            strEndsWith (lowerStr file.name) (lowerStr ext) = true) ∧
          (∀ p ∈ effectiveExcludes f, regexTestLit p file.name = false)) ∧
    (syncPass exPaths c2Db0 exSource [exFileA, exFileB]).jobsCreated.map
        (fun j => (j.fileName, j.status)) = [("report.docx", .pending)] := by
  constructor
  · intro f files file
    simp only [filterFiles, List.mem_filter, fileKeep, Bool.and_eq_true,
      List.any_eq_true, Bool.not_eq_true', List.any_eq_false]
    constructor
    · rintro ⟨hmem, ⟨hext, hexc⟩⟩
      exact ⟨hmem, hext, fun p hp => by simpa using hexc p hp⟩
    · rintro ⟨hmem, hext, hexc⟩
      exact ⟨hmem, hext, fun p hp => by simpa using hexc p hp⟩
  · decide

/-! ## Job status transitions (C1) -/

/-- C1 counterexample: `cancelJob` on a *pending* job writes `failed`
directly — the job reaches a terminal status without ever being observed
in `processing`. -/
theorem cancel_pending_skips_processing :
    lookupJob (exDb .pending) 1 = some (exJob .pending) ∧
    (exJob .pending).status = .pending ∧
    (cancelJob (exDb .pending) 1).statusWrites = [.failed] ∧
    (lookupJob (cancelJob (exDb .pending) 1).db 1).map (fun j => j.status) =
      some .failed := by
  decide

/-- C1 (amended): the status writes of a single `processJob` execution are
one of `[]` (job not found), `[failed]` (failure before the `processing`
update: missing source relation or invalid configured destination),
`[processing, completed]` or `[processing, failed]` — so `processJob`
itself never reaches a terminal status without first writing `processing`,
except when the source config is rejected before the `processing` update;
and `cancelJob` moves a pending or processing job *directly* to `failed`
(no `processing` write for a pending job) while leaving a terminal
(`completed`/`failed`) job untouched.  `processJob` imposes no
precondition on the current status, which is how a queue retry mutates an
already-`failed` job back to `processing`. -/
theorem status_write_characterization (paths : AppPaths) (env : ProcEnv)
    (db : Db) (jid : Nat) :
    ((processJob paths env db jid).statusWrites = [] ∨
      (processJob paths env db jid).statusWrites = [.failed] ∨
      (processJob paths env db jid).statusWrites = [.processing, .completed] ∨
      (processJob paths env db jid).statusWrites = [.processing, .failed]) ∧
    (∀ job, lookupJob db jid = some job →
      ((job.status = .pending ∨ job.status = .processing) →
        cancelJob db jid =
          ⟨updateJob db jid (fun j =>
              { j with status := .failed, error := some "Cancelled by user" }),
            [.failed], true⟩) ∧
      ((job.status = .completed ∨ job.status = .failed) →
        cancelJob db jid = ⟨db, [], false⟩)) := by
  constructor
  · unfold processJob
    repeat' ((try dsimp only); split)
    all_goals
      first
        | exact Or.inl rfl
        | exact Or.inr (Or.inl rfl)
        | exact Or.inr (Or.inr (Or.inl rfl))
        | exact Or.inr (Or.inr (Or.inr rfl))
  · intro job hjob
    unfold cancelJob
    rw [hjob]
    constructor
    · intro hs
      simp [hs]
    · intro hs
      have : ¬ (job.status = .pending ∨ job.status = .processing) := by
        rcases hs with h | h <;> rw [h] <;> decide
      simp [this]

/-- C1 witness: the characterization applied at a concrete store. -/
theorem status_write_characterization_witness :
    lookupJob (exDb .completed) 1 = some (exJob .completed) ∧
    (((exJob .completed).status = .pending ∨ (exJob .completed).status = .processing) →
      cancelJob (exDb .completed) 1 =
        ⟨updateJob (exDb .completed) 1 (fun j =>
            { j with status := .failed, error := some "Cancelled by user" }),
          [.failed], true⟩) ∧
    (((exJob .completed).status = .completed ∨ (exJob .completed).status = .failed) →
      cancelJob (exDb .completed) 1 = ⟨exDb .completed, [], false⟩) :=
  ⟨rfl,
    (status_write_characterization exPaths exEnvOk (exDb .completed) 1).2
      (exJob .completed) rfl⟩

/-! ## processJob helper lemmas -/

theorem lookupJob_updateJob (db : Db) (jid : Nat) (f : JobRec → JobRec)
    (hf : ∀ j, (f j).id = j.id) :
    lookupJob (updateJob db jid f) jid = (lookupJob db jid).map f := by
  unfold lookupJob updateJob
  induction db.jobs with
  | nil => rfl
  | cons j t ih =>
    by_cases h : j.id = jid
    · simp [List.find?_cons, h, hf]
    · simp [List.find?_cons, h, ih]

theorem lookupJob_set_convertedFiles (d : Db) (cfs : List ConvertedFileRec) (jid : Nat) :
    lookupJob { d with convertedFiles := cfs } jid = lookupJob d jid := rfl

theorem updateJob_convertedFiles (d : Db) (jid : Nat) (f : JobRec → JobRec) :
    (updateJob d jid f).convertedFiles = d.convertedFiles := rfl

/-! ## Export-copy failure (C7) -/

/-- C7: when the conversion succeeds but the copy to the configured export
destination fails, `processJob` still resolves, the job's status writes
are `processing` then `completed`, the copy failure surfaces only as the
export warning, the job record ends `completed` with the canonical storage
output path recorded, and the `ConvertedFile` index gains the entry for
the canonical output. -/
theorem export_failure_job_completes (paths : AppPaths) (db : Db) (jid : Nat)
    (job : JobRec) (src : SourceRec) (ck : Option String) (dest : String)
    (hj : lookupJob db jid = some job)
    (hs : lookupSource db job.sourceId = some src)
    (he : enrichOk src.config.destination = true)
    (hx : supportedExtension (lowerStr (extname job.filePath)) = true)
    (hd : getValidatedDestination src.config.destination src.name = .ok dest) :
    (processJob paths ⟨true, ck, false⟩ db jid).ok = true ∧
    (processJob paths ⟨true, ck, false⟩ db jid).statusWrites = [.processing, .completed] ∧
    (processJob paths ⟨true, ck, false⟩ db jid).warnings =
      ["Warning: Failed to export to configured destination"] ∧
    (lookupJob (processJob paths ⟨true, ck, false⟩ db jid).db jid).map (fun j => j.status) =
      some .completed ∧
    (lookupJob (processJob paths ⟨true, ck, false⟩ db jid).db jid).map (fun j => j.outputPath) =
      some (some (pJoin (pJoin paths.storagePath dest)
        (basenameExt job.fileName (lowerStr (extname job.filePath)) ++ ".md"))) ∧
    (processJob paths ⟨true, ck, false⟩ db jid).db.convertedFiles =
      db.convertedFiles ++
        [⟨job.filePath,
          pJoin (pJoin paths.storagePath dest)
            (basenameExt job.fileName (lowerStr (extname job.filePath)) ++ ".md"),
          basenameExt job.fileName (lowerStr (extname job.filePath)) ++ ".md",
          lowerStr (extname job.filePath), src.platform, ck.getD "unknown"⟩] := by
  unfold processJob
  rw [hj]
  try dsimp only
  rw [hs]
  try dsimp only
  simp only [he, hd, hx, not_true_eq_false, if_false, ite_false]
  try dsimp only
  refine ⟨?_, ?_, ?_, ?_, ?_, ?_⟩ <;>
    simp [lookupJob_set_convertedFiles, lookupJob_updateJob, updateJob_convertedFiles, hj]

/-- C7 witness: a concrete job whose export copy fails still completes. -/
theorem export_failure_job_completes_witness :
    lookupJob (exDb .pending) 1 = some (exJob .pending) ∧
    lookupSource (exDb .pending) (exJob .pending).sourceId = some exSource ∧
    enrichOk exSource.config.destination = true ∧
    supportedExtension (lowerStr (extname (exJob .pending).filePath)) = true ∧
    getValidatedDestination exSource.config.destination exSource.name = .ok "docs" ∧
    ((processJob exPaths ⟨true, some "mdsum", false⟩ (exDb .pending) 1).ok = true ∧
      (processJob exPaths ⟨true, some "mdsum", false⟩ (exDb .pending) 1).statusWrites =
        [.processing, .completed] ∧
      (processJob exPaths ⟨true, some "mdsum", false⟩ (exDb .pending) 1).warnings =
        ["Warning: Failed to export to configured destination"] ∧
      (lookupJob (processJob exPaths ⟨true, some "mdsum", false⟩ (exDb .pending) 1).db 1).map
          (fun j => j.status) = some .completed ∧
      (lookupJob (processJob exPaths ⟨true, some "mdsum", false⟩ (exDb .pending) 1).db 1).map
          (fun j => j.outputPath) =
        some (some (pJoin (pJoin exPaths.storagePath "docs")
          (basenameExt (exJob .pending).fileName (lowerStr (extname (exJob .pending).filePath)) ++ ".md"))) ∧
      (processJob exPaths ⟨true, some "mdsum", false⟩ (exDb .pending) 1).db.convertedFiles =
        (exDb .pending).convertedFiles ++
          [⟨(exJob .pending).filePath,
            pJoin (pJoin exPaths.storagePath "docs")
              (basenameExt (exJob .pending).fileName (lowerStr (extname (exJob .pending).filePath)) ++ ".md"),
            basenameExt (exJob .pending).fileName (lowerStr (extname (exJob .pending).filePath)) ++ ".md",
            lowerStr (extname (exJob .pending).filePath), exSource.platform,
            (some "mdsum").getD "unknown"⟩]) :=
  ⟨rfl, rfl, by decide, by decide, rfl,
    export_failure_job_completes exPaths (exDb .pending) 1 (exJob .pending) exSource
      (some "mdsum") "docs" rfl rfl (by decide) (by decide) rfl⟩

/-! ## Queue retry machinery (C3, C6) -/

theorem processJob_none_writes (paths : AppPaths) (env : ProcEnv) (db : Db) (jid : Nat)
    (h : lookupJob db jid = none) :
    (processJob paths env db jid).statusWrites = [] := by
  unfold processJob
  rw [h]

theorem processJob_ok_iff (paths : AppPaths) (env : ProcEnv) (db : Db) (jid : Nat) :
    (processJob paths env db jid).ok = true ↔
      (processJob paths env db jid).statusWrites = [.processing, .completed] := by
  unfold processJob
  repeat' ((try dsimp only); split)
  all_goals simp

/-- The status writes and outcome of `processJob` depend only on the job's
`sourceId` and `filePath`, the sources table and the environment — not on
the job's mutable fields nor on the rest of the store. -/
theorem processJob_congr (paths : AppPaths) (env : ProcEnv) (db db' : Db) (jid : Nat)
    (job job' : JobRec)
    (hj : lookupJob db jid = some job) (hj' : lookupJob db' jid = some job')
    (hsid : job'.sourceId = job.sourceId) (hfp : job'.filePath = job.filePath)
    (hsrc : db'.sources = db.sources) :
    (processJob paths env db' jid).statusWrites = (processJob paths env db jid).statusWrites ∧
    (processJob paths env db' jid).ok = (processJob paths env db jid).ok := by
  have hls : ∀ x, lookupSource db' x = lookupSource db x := by
    intro x
    unfold lookupSource
    rw [hsrc]
  unfold processJob
  rw [hj, hj']
  try dsimp only
  rw [hsid, hfp, hls]
  repeat' ((try dsimp only); split)
  all_goals exact ⟨rfl, rfl⟩

/-- `processJob` never changes the sources table, nor the identity fields
(`sourceId`, `filePath`) of the job it processes. -/
theorem processJob_preserves (paths : AppPaths) (env : ProcEnv) (db : Db) (jid : Nat) :
    (processJob paths env db jid).db.sources = db.sources ∧
    (lookupJob (processJob paths env db jid).db jid).map (fun j => (j.sourceId, j.filePath)) =
      (lookupJob db jid).map (fun j => (j.sourceId, j.filePath)) := by
  unfold processJob
  repeat' ((try dsimp only); split)
  all_goals constructor
  all_goals
    first
      | rfl
      | simp_all [markFailed, lookupJob_updateJob, lookupJob_set_convertedFiles,
          updateJob_convertedFiles]

/-- When every attempt on this job fails after reaching `processing`, the
bull queue makes exactly 3 attempts (`attempts: 3` means 3 attempts in
total, i.e. 2 retries), waits 2000 ms and then 4000 ms, ends unsuccessful,
and persists `processing, failed` to the job record on *every* attempt. -/
theorem queueRun_all_fail (paths : AppPaths) (envOf : Nat → ProcEnv) (db : Db) (jid : Nat)
    (h : ∀ k, (processJob paths (envOf k) db jid).statusWrites = [.processing, .failed]) :
    (queueProcessJob paths envOf db jid).attemptsMade = 3 ∧
    (queueProcessJob paths envOf db jid).delays = [2000, 4000] ∧
    (queueProcessJob paths envOf db jid).succeeded = false ∧
    (queueProcessJob paths envOf db jid).statusWrites =
      [.processing, .failed, .processing, .failed, .processing, .failed] := by
  have hokOf : ∀ (env : ProcEnv) (d : Db),
      (processJob paths env d jid).statusWrites = [.processing, .failed] →
      (processJob paths env d jid).ok = false := by
    intro env d hw
    cases hb : (processJob paths env d jid).ok with
    | false => rfl
    | true =>
      have := (processJob_ok_iff paths env d jid).mp hb
      rw [hw] at this
      simp at this
  obtain ⟨job, hjob⟩ : ∃ j, lookupJob db jid = some j := by
    cases hl : lookupJob db jid with
    | none =>
      have h0 := processJob_none_writes paths (envOf 1) db jid hl
      have h1 := h 1
      rw [h0] at h1
      simp at h1
    | some j => exact ⟨j, rfl⟩
  -- attempt 1
  have h1 := h 1
  have hok1 := hokOf (envOf 1) db h1
  set db1 := (processJob paths (envOf 1) db jid).db with hdb1
  have hp1 := processJob_preserves paths (envOf 1) db jid
  obtain ⟨job1, hjob1, hsid1, hfp1⟩ :
      ∃ j, lookupJob db1 jid = some j ∧ j.sourceId = job.sourceId ∧ j.filePath = job.filePath := by
    have h2 := hp1.2
    rw [hjob] at h2
    cases hl : lookupJob db1 jid with
    | none => rw [← hdb1, hl] at h2; simp at h2
    | some j =>
      rw [← hdb1, hl] at h2
      simp at h2
      exact ⟨j, rfl, h2.1, h2.2⟩
  -- attempt 2
  have hc2 := processJob_congr paths (envOf 2) db db1 jid job job1 hjob hjob1 hsid1 hfp1 hp1.1
  have h2 : (processJob paths (envOf 2) db1 jid).statusWrites = [.processing, .failed] := by
    rw [hc2.1]
    exact h 2
  have hok2 := hokOf (envOf 2) db1 h2
  set db2 := (processJob paths (envOf 2) db1 jid).db with hdb2
  have hp2 := processJob_preserves paths (envOf 2) db1 jid
  have hsrc2 : db2.sources = db.sources := by
    rw [← hdb2] at hp2
    rw [hp2.1, hp1.1]
  obtain ⟨job2, hjob2, hsid2, hfp2⟩ :
      ∃ j, lookupJob db2 jid = some j ∧ j.sourceId = job.sourceId ∧ j.filePath = job.filePath := by
    have h2' := hp2.2
    rw [hjob1] at h2'
    cases hl : lookupJob db2 jid with
    | none => rw [← hdb2, hl] at h2'; simp at h2'
    | some j =>
      rw [← hdb2, hl] at h2'
      simp at h2'
      exact ⟨j, rfl, h2'.1.trans hsid1, h2'.2.trans hfp1⟩
  -- attempt 3
  have hc3 := processJob_congr paths (envOf 3) db db2 jid job job2 hjob hjob2 hsid2 hfp2 hsrc2
  have h3 : (processJob paths (envOf 3) db2 jid).statusWrites = [.processing, .failed] := by
    rw [hc3.1]
    exact h 3
  -- unroll the queue
  have hok3 := hokOf (envOf 3) db2 h3
  unfold queueProcessJob bullAttempts queueRunAux
  simp only [Nat.zero_add]
  try dsimp only
  rw [hok1]
  simp only [Bool.false_eq_true, if_false]
  rw [if_neg (show ¬(2 : Nat) = 0 by decide)]
  simp only [show (1 + 1 : Nat) = 2 from rfl]
  rw [← hdb1]
  try unfold queueRunAux
  try dsimp only
  rw [hok2]
  simp only [Bool.false_eq_true, if_false]
  rw [if_neg (show ¬(1 : Nat) = 0 by decide)]
  simp only [show (2 + 1 : Nat) = 3 from rfl]
  rw [← hdb2]
  try unfold queueRunAux
  try dsimp only
  rw [hok3]
  simp only [Bool.false_eq_true, if_false, if_true]
  simp only [show (1 + 1 + 1 : Nat) = 3 from rfl, show (1 + 1 : Nat) = 2 from rfl]
  try dsimp only
  refine ⟨?_, ?_, ?_, ?_⟩ <;>
    first
      | trivial
      | (rw [h1, h2, h3]; rfl)

/-- C3 (amended): `defaultJobOptions` gives every conversion job 3 attempts
in total — i.e. up to 2 retries, with exponential backoff delays of 2000 ms
and then 4000 ms; a 3rd consecutive failure already triggers no further
retry, and the retries are *not* transparent: every failed attempt persists
`status: "failed"` (and every retry persists `status: "processing"`) to the
job record, so the record goes through
processing, failed, processing, failed, processing, failed. -/
theorem queue_retry_policy (paths : AppPaths) (envOf : Nat → ProcEnv) (db : Db) (jid : Nat)
    (h : ∀ k, (processJob paths (envOf k) db jid).statusWrites = [.processing, .failed]) :
    (queueProcessJob paths envOf db jid).attemptsMade = 3 ∧
    (queueProcessJob paths envOf db jid).delays = [2000, 4000] ∧
    (queueProcessJob paths envOf db jid).succeeded = false ∧
    (queueProcessJob paths envOf db jid).statusWrites =
      [.processing, .failed, .processing, .failed, .processing, .failed] :=
  queueRun_all_fail paths envOf db jid h

/-- C3 witness: a concrete always-failing job exercising the queue. -/
theorem queue_retry_policy_witness :
    (∀ k : Nat, (processJob exPaths ((fun _ => exEnvConvFail) k) (exDb .pending) 1).statusWrites =
      [.processing, .failed]) ∧
    ((queueProcessJob exPaths (fun _ => exEnvConvFail) (exDb .pending) 1).attemptsMade = 3 ∧
      (queueProcessJob exPaths (fun _ => exEnvConvFail) (exDb .pending) 1).delays = [2000, 4000] ∧
      (queueProcessJob exPaths (fun _ => exEnvConvFail) (exDb .pending) 1).succeeded = false ∧
      (queueProcessJob exPaths (fun _ => exEnvConvFail) (exDb .pending) 1).statusWrites =
        [.processing, .failed, .processing, .failed, .processing, .failed]) :=
  ⟨by
      intro k
      show (processJob exPaths exEnvConvFail (exDb .pending) 1).statusWrites = [.processing, .failed]
      decide,
    queue_retry_policy exPaths (fun _ => exEnvConvFail) (exDb .pending) 1 (by
      intro k
      show (processJob exPaths exEnvConvFail (exDb .pending) 1).statusWrites = [.processing, .failed]
      decide)⟩

/-- C3 counterexample: for a concrete job that fails on every attempt, the
queue makes exactly 3 attempts with backoff delays `[2000, 4000]` — there
is no third retry and no 8000 ms delay, contradicting "up to 3 retries
with delays of at least 2s, 4s and 8s"; and the job record receives the
persisted status sequence
processing, failed, processing, failed, processing, failed — the
intermediate failed attempts are persisted, contradicting "only the final
outcome is persisted". -/
theorem retry_schedule_counterexample :
    (queueProcessJob exPaths (fun _ => exEnvConvFail) (exDb .pending) 1).attemptsMade = 3 ∧
    (queueProcessJob exPaths (fun _ => exEnvConvFail) (exDb .pending) 1).delays = [2000, 4000] ∧
    (queueProcessJob exPaths (fun _ => exEnvConvFail) (exDb .pending) 1).delays ≠
      [2000, 4000, 8000] ∧
    (queueProcessJob exPaths (fun _ => exEnvConvFail) (exDb .pending) 1).statusWrites =
      [.processing, .failed, .processing, .failed, .processing, .failed] := by
  decide

/-- C6 (amended): a job that fails with a conversion error (the converter
reports failure) is re-attempted by the queue exactly like any other
failure — there is no terminal-failure fast path for `ConversionError`:
`queueService.startProcessing` rethrows every error so that bull applies
the same `attempts: 3` policy. -/
theorem conversion_error_is_retried (paths : AppPaths) (envOf : Nat → ProcEnv)
    (db : Db) (jid : Nat)
    (hce : ∀ k, (envOf k).convertOk = false)
    -- (the conversion-failure setting; the policy below is failure-kind-agnostic)
    (h : ∀ k, (processJob paths (envOf k) db jid).statusWrites = [.processing, .failed]) :
    1 < (queueProcessJob paths envOf db jid).attemptsMade ∧
    (queueProcessJob paths envOf db jid).attemptsMade = bullAttempts ∧
    (queueProcessJob paths envOf db jid).delays ≠ [] := by
  have hq := queueRun_all_fail paths envOf db jid h
  refine ⟨?_, ?_, ?_⟩
  · rw [hq.1]
    decide
  · rw [hq.1]
    rfl
  · rw [hq.2.1]
    decide

/-- C6 witness: a concrete conversion-failing job. -/
theorem conversion_error_is_retried_witness :
    (∀ k : Nat, ((fun _ => exEnvConvFail) k : ProcEnv).convertOk = false) ∧
    (∀ k : Nat, (processJob exPaths ((fun _ => exEnvConvFail) k) (exDb .pending) 1).statusWrites =
      [.processing, .failed]) ∧
    (1 < (queueProcessJob exPaths (fun _ => exEnvConvFail) (exDb .pending) 1).attemptsMade ∧
      (queueProcessJob exPaths (fun _ => exEnvConvFail) (exDb .pending) 1).attemptsMade = bullAttempts ∧
      (queueProcessJob exPaths (fun _ => exEnvConvFail) (exDb .pending) 1).delays ≠ []) :=
  ⟨fun _ => rfl, by
      intro k
      show (processJob exPaths exEnvConvFail (exDb .pending) 1).statusWrites = [.processing, .failed]
      decide,
    conversion_error_is_retried exPaths (fun _ => exEnvConvFail) (exDb .pending) 1
      (fun _ => rfl) (by
        intro k
        show (processJob exPaths exEnvConvFail (exDb .pending) 1).statusWrites = [.processing, .failed]
        decide)⟩

/-- C6 counterexample: a concrete job failing with a conversion error is
attempted 3 times — it *is* re-attempted by the queue's retry policy,
contradicting "fails terminally with no retry". -/
theorem conversion_error_no_retry_counterexample :
    (processJob exPaths exEnvConvFail (exDb .pending) 1).statusWrites = [.processing, .failed] ∧
    (processJob exPaths exEnvConvFail (exDb .pending) 1).ok = false ∧
    (queueProcessJob exPaths (fun _ => exEnvConvFail) (exDb .pending) 1).attemptsMade = 3 := by
  decide

/-! ## Sync idempotency (C2) -/

/-- C2 (code evaluated at the failing input): syncing the same unchanged
remote file twice, with a successful conversion in between, creates a
job on *both* passes.  The `ConvertedFile` row written by `processJob`
stores the downloaded temp path (`job.filePath`) as `originalPath`, while
`processFileChange` queries the index by the remote path (`file.path`), so
the skip-check never matches — and even if it did, the stored checksum is
the converted output's digest, not the remote file's checksum. -/
theorem sync_second_pass_not_idempotent :
    c2Pass1.jobsCreated.length = 1 ∧
    c2AfterProc.convertedFiles.map (fun cf => cf.originalPath) =
      [pJoin exPaths.tempPath exFileA.name] ∧
    pJoin exPaths.tempPath exFileA.name ≠ exFileA.path ∧
    c2AfterProc.convertedFiles.map (fun cf => cf.checksum) = ["mdsum"] ∧
    exFileA.checksum = "ck-a" ∧
    c2Pass2.jobsCreated.length = 1 ∧
    c2Pass2.processedCount = 1 := by
  decide

/-! ## cleanMarkdown lemmas (C10) -/

theorem noTriple_mono : ∀ (l : List Char) (j : Nat),
    noTriple (j + 1) l = true → noTriple j l = true := by
  intro l
  induction l with
  | nil => intro j _; rfl
  | cons c t ih =>
    intro j h
    unfold noTriple at h ⊢
    by_cases hc : c = '\n'
    · rw [if_pos hc] at h ⊢
      by_cases h2 : 2 ≤ j + 1
      · rw [if_pos h2] at h
        exact absurd h (by simp)
      · have hj : j = 0 := by omega
        subst hj
        rw [if_neg h2] at h
        rw [if_neg (by omega : ¬ 2 ≤ 0)]
        exact ih 1 h
    · rw [if_neg hc] at h ⊢
      exact h

theorem noTriple_tail (c : Char) (t : List Char) (h : noTriple 0 (c :: t) = true) :
    noTriple 0 t = true := by
  unfold noTriple at h
  by_cases hc : c = '\n'
  · rw [if_pos hc, if_neg (by omega : ¬ 2 ≤ 0)] at h
    exact noTriple_mono t 0 h
  · rwa [if_neg hc] at h

theorem okTrail_tail (c : Char) (t : List Char) (h : okTrail (c :: t) = true) :
    okTrail t = true := by
  cases t with
  | nil => rfl
  | cons d t' =>
    unfold okTrail at h
    exact ((Bool.and_eq_true _ _).mp h).2

theorem okTrail_cons_nonSp (c : Char) (r : List Char) (hc : isSpTab c = false)
    (h : okTrail r = true) : okTrail (c :: r) = true := by
  cases r with
  | nil => simp [okTrail, hc]
  | cons d t => simp [okTrail, hc, h]

theorem spTab_ne_nl (c : Char) (h : isSpTab c = true) : ¬ c = '\n' := by
  intro he
  subst he
  simp [isSpTab] at h

/-- Emitting a pending run before a non-newline character preserves the
no-triple-newline property. -/
theorem noTriple_emit_nonNl (k : Nat) (c : Char) (r : List Char) (hc : ¬ c = '\n')
    (h : noTriple 0 (c :: r) = true) : noTriple 0 (emitNl k (c :: r)) = true := by
  unfold emitNl
  unfold noTriple at h
  rw [if_neg hc] at h
  by_cases h3 : 3 ≤ k
  · rw [if_pos h3]
    simp only [List.cons_append, List.nil_append]
    unfold noTriple
    rw [if_pos rfl, if_neg (by omega : ¬ 2 ≤ 0)]
    unfold noTriple
    rw [if_pos rfl, if_neg (by omega : ¬ 2 ≤ 1)]
    unfold noTriple
    rw [if_neg hc]
    exact h
  · rw [if_neg h3]
    have : k = 0 ∨ k = 1 ∨ k = 2 := by omega
    rcases this with hk | hk | hk <;> subst hk
    · simpa [noTriple, hc] using h
    · simp only [List.replicate, List.cons_append, List.nil_append]
      unfold noTriple
      rw [if_pos rfl, if_neg (by omega : ¬ 2 ≤ 0)]
      unfold noTriple
      rw [if_neg hc]
      exact h
    · simp only [List.replicate, List.cons_append, List.nil_append]
      unfold noTriple
      rw [if_pos rfl, if_neg (by omega : ¬ 2 ≤ 0)]
      unfold noTriple
      rw [if_pos rfl, if_neg (by omega : ¬ 2 ≤ 1)]
      unfold noTriple
      rw [if_neg hc]
      exact h

theorem noTriple_emit_nil (k : Nat) : noTriple 0 (emitNl k []) = true := by
  unfold emitNl
  by_cases h3 : 3 ≤ k
  · rw [if_pos h3]
    decide
  · rw [if_neg h3]
    have : k = 0 ∨ k = 1 ∨ k = 2 := by omega
    rcases this with hk | hk | hk <;> subst hk <;> decide

/-- The output of the newline-collapsing pass never contains a run of
three or more newlines. -/
theorem collapse_noTriple : ∀ (l : List Char) (k : Nat),
    noTriple 0 (collapseAux k l) = true := by
  intro l
  induction l with
  | nil => intro k; exact noTriple_emit_nil k
  | cons c t ih =>
    intro k
    unfold collapseAux
    by_cases hc : c = '\n'
    · rw [if_pos hc]
      exact ih (k + 1)
    · rw [if_neg hc]
      refine noTriple_emit_nonNl k c _ hc ?_
      unfold noTriple
      rw [if_neg hc]
      exact ih 0

/-- On input with no triple-newline run, the collapsing pass is the
identity (up to re-emitting the `k` pending newlines). -/
theorem collapse_id_of_noTriple : ∀ (l : List Char) (k : Nat), k ≤ 2 →
    noTriple k l = true → collapseAux k l = List.replicate k '\n' ++ l := by
  intro l
  induction l with
  | nil =>
    intro k hk _
    unfold collapseAux emitNl
    rw [if_neg (by omega : ¬ 3 ≤ k)]
  | cons c t ih =>
    intro k hk h
    unfold collapseAux
    unfold noTriple at h
    by_cases hc : c = '\n'
    · rw [if_pos hc] at h ⊢
      by_cases h2 : 2 ≤ k
      · rw [if_pos h2] at h
        exact absurd h (by simp)
      · rw [if_neg h2] at h
        rw [ih (k + 1) (by omega) h]
        subst hc
        rw [List.replicate_succ' ]
        simp
    · rw [if_neg hc] at h ⊢
      unfold emitNl
      rw [if_neg (by omega : ¬ 3 ≤ k)]
      rw [ih 0 (by omega) h]
      simp

theorem collapseNl_id (l : List Char) (h : noTriple 0 l = true) : collapseNl l = l := by
  unfold collapseNl
  rw [collapse_id_of_noTriple l 0 (by omega) h]
  simp

theorem okTrail_append_pend : ∀ (pend : List Char), (∀ x ∈ pend, isSpTab x = true) →
    ∀ (c : Char) (r : List Char), ¬ c = '\n' → okTrail (c :: r) = true →
    okTrail (pend ++ c :: r) = true := by
  intro pend
  induction pend with
  | nil => intro _ c r _ h; exact h
  | cons a p ih =>
    intro hp c r hc h
    have ha : isSpTab a = true := hp a (by simp)
    have hrest := ih (fun x hx => hp x (by simp [hx])) c r hc h
    cases hα : p ++ c :: r with
    | nil => exact absurd hα (by simp)
    | cons d t =>
      have hd : ¬ d = '\n' := by
        cases p with
        | nil =>
          simp only [List.nil_append] at hα
          cases hα
          exact hc
        | cons b p' =>
          simp only [List.cons_append] at hα
          have hb : isSpTab b = true := hp b (by simp)
          injection hα with h1 h2
          rw [← h1]
          exact spTab_ne_nl b hb
      show okTrail (a :: (p ++ c :: r)) = true
      rw [hα]
      unfold okTrail
      rw [hα] at hrest
      simp [hrest, hd]

/-- The per-line strip pass always produces output in which no line ends
with a space or tab. -/
theorem strip_okTrail : ∀ (l pend : List Char), (∀ x ∈ pend, isSpTab x = true) →
    okTrail (stripAux pend l) = true := by
  intro l
  induction l with
  | nil => intro pend _; rfl
  | cons c t ih =>
    intro pend hp
    unfold stripAux
    by_cases hsp : isSpTab c = true
    · rw [if_pos hsp]
      refine ih (pend ++ [c]) ?_
      intro x hx
      rcases List.mem_append.mp hx with h | h
      · exact hp x h
      · simp at h
        subst h
        exact hsp
    · rw [if_neg hsp]
      by_cases hnl : c = '\n'
      · rw [if_pos hnl]
        subst hnl
        exact okTrail_cons_nonSp _ _ (by decide) (ih [] (by simp))
      · rw [if_neg hnl]
        refine okTrail_append_pend pend hp c _ hnl ?_
        exact okTrail_cons_nonSp _ _ (by simpa using hsp) (ih [] (by simp))

theorem okTrail_all_sptab_false : ∀ (p : List Char) (a : Char),
    (∀ x ∈ a :: p, isSpTab x = true) → okTrail (a :: p) = false := by
  intro p
  induction p with
  | nil =>
    intro a hp
    have := hp a (by simp)
    simp [okTrail, this]
  | cons b p' ih =>
    intro a hp
    unfold okTrail
    rw [ih b (fun x hx => hp x (by simp at hx; rcases hx with h | h <;> simp [h]))]
    simp

theorem okTrail_sptab_before_nl_false : ∀ (p : List Char) (a : Char) (t : List Char),
    (∀ x ∈ a :: p, isSpTab x = true) → okTrail ((a :: p) ++ '\n' :: t) = false := by
  intro p
  induction p with
  | nil =>
    intro a t hp
    have := hp a (by simp)
    simp [okTrail, this]
  | cons b p' ih =>
    intro a t hp
    show okTrail (a :: b :: (p' ++ '\n' :: t)) = false
    unfold okTrail
    have hrec := ih b t (fun x hx => hp x (by simp at hx; rcases hx with h | h <;> simp [h]))
    simp only [List.cons_append] at hrec
    rw [hrec]
    simp

theorem okTrail_suffix : ∀ (pre l : List Char), okTrail (pre ++ l) = true →
    okTrail l = true := by
  intro pre
  induction pre with
  | nil => intro l h; exact h
  | cons a p ih =>
    intro l h
    exact ih l (okTrail_tail a (p ++ l) h)

/-- On input in which no line ends with a space or tab, the strip pass is
the identity (re-emitting the pending run unchanged). -/
theorem strip_id_of_okTrail : ∀ (l pend : List Char),
    (∀ x ∈ pend, isSpTab x = true) → okTrail (pend ++ l) = true →
    stripAux pend l = pend ++ l := by
  intro l
  induction l with
  | nil =>
    intro pend hp h
    cases pend with
    | nil => rfl
    | cons a p =>
      rw [List.append_nil] at h
      rw [okTrail_all_sptab_false p a hp] at h
      exact absurd h (by simp)
  | cons c t ih =>
    intro pend hp h
    unfold stripAux
    by_cases hsp : isSpTab c = true
    · rw [if_pos hsp]
      have hp' : ∀ x ∈ pend ++ [c], isSpTab x = true := by
        intro x hx
        rcases List.mem_append.mp hx with hx | hx
        · exact hp x hx
        · simp at hx
          subst hx
          exact hsp
      rw [ih (pend ++ [c]) hp' (by simpa using h)]
      simp
    · rw [if_neg hsp]
      by_cases hnl : c = '\n'
      · rw [if_pos hnl]
        cases pend with
        | nil =>
          subst hnl
          rw [ih [] (by simp) (by simpa using okTrail_tail _ _ h)]
          simp
        | cons a p =>
          subst hnl
          rw [okTrail_sptab_before_nl_false p a t hp] at h
          exact absurd h (by simp)
      · rw [if_neg hnl]
        have hct : okTrail (c :: t) = true := okTrail_suffix pend _ h
        rw [ih [] (by simp) (by simpa using okTrail_tail _ _ hct)]
        simp

theorem noTriple_dropWhile (p : Char → Bool) : ∀ (l : List Char),
    noTriple 0 l = true → noTriple 0 (l.dropWhile p) = true := by
  intro l
  induction l with
  | nil => intro _; rfl
  | cons c t ih =>
    intro h
    rw [List.dropWhile_cons]
    by_cases hc : p c = true
    · rw [if_pos hc]
      exact ih (noTriple_tail c t h)
    · rw [if_neg hc]
      exact h

theorem okTrail_dropWhile (p : Char → Bool) : ∀ (l : List Char),
    okTrail l = true → okTrail (l.dropWhile p) = true := by
  intro l
  induction l with
  | nil => intro _; rfl
  | cons c t ih =>
    intro h
    rw [List.dropWhile_cons]
    by_cases hc : p c = true
    · rw [if_pos hc]
      exact ih (okTrail_tail c t h)
    · rw [if_neg hc]
      exact h

theorem noTriple_trimRight : ∀ (l : List Char) (j : Nat),
    noTriple j l = true → noTriple j (trimRightL l) = true := by
  intro l
  induction l with
  | nil => intro j _; rfl
  | cons c t ih =>
    intro j h
    unfold trimRightL
    by_cases hz : trimRightL t = [] ∧ jsWs c = true
    · rw [if_pos hz]
      rfl
    · rw [if_neg hz]
      unfold noTriple at h ⊢
      by_cases hc : c = '\n'
      · rw [if_pos hc] at h ⊢
        by_cases h2 : 2 ≤ j
        · rw [if_pos h2] at h
          exact absurd h (by simp)
        · rw [if_neg h2] at h ⊢
          exact ih (j + 1) h
      · rw [if_neg hc] at h ⊢
        exact ih 0 h

theorem trimRightL_cons (c : Char) (t : List Char) :
    trimRightL (c :: t) =
      if trimRightL t = [] ∧ jsWs c = true then [] else c :: trimRightL t := rfl

theorem spTab_ws (c : Char) (h : isSpTab c = true) : jsWs c = true := by
  unfold isSpTab at h
  unfold jsWs
  rcases Bool.or_eq_true_iff.mp h with h' | h' <;> simp [h']

theorem trimRight_head : ∀ (c : Char) (t : List Char),
    trimRightL (c :: t) = [] ∨ trimRightL (c :: t) = c :: trimRightL t := by
  intro c t
  rw [trimRightL_cons]
  by_cases hz : trimRightL t = [] ∧ jsWs c = true
  · rw [if_pos hz]
    exact Or.inl rfl
  · rw [if_neg hz]
    exact Or.inr rfl

theorem okTrail_trimRight : ∀ (l : List Char),
    okTrail l = true → okTrail (trimRightL l) = true := by
  intro l
  induction l with
  | nil => intro _; rfl
  | cons c t ih =>
    intro h
    rw [trimRightL_cons]
    by_cases hz : trimRightL t = [] ∧ jsWs c = true
    · rw [if_pos hz]
      rfl
    · rw [if_neg hz]
      by_cases hsp : isSpTab c = true
      · -- c is a space/tab; okTrail (c :: t) forces t to start with a
        -- non-newline character, which trimRightL preserves
        have hws : jsWs c = true := spTab_ws c hsp
        have htne : ¬ trimRightL t = [] := fun he => hz ⟨he, hws⟩
        cases t with
        | nil => exact ((htne rfl).elim)
        | cons d t' =>
          have hd : ¬ d = '\n' := by
            unfold okTrail at h
            by_contra hdn
            simp [hsp, hdn] at h
          rcases trimRight_head d t' with he | he
          · exact absurd he htne
          · rw [he]
            have hrec : okTrail (d :: trimRightL t') = true := by
              have := ih (okTrail_tail c _ h)
              rwa [he] at this
            cases hr : trimRightL t' with
            | nil =>
              have hdw : ¬ jsWs d = true := by
                intro hdww
                apply htne
                rw [trimRightL_cons, hr, if_pos ⟨rfl, hdww⟩]
              have hds : isSpTab d = false := by
                cases hα : isSpTab d
                · rfl
                · exact absurd (spTab_ws d hα) hdw
              simp [okTrail, hsp, hd, hds]
            | cons e r =>
              rw [hr] at hrec
              show okTrail (c :: d :: e :: r) = true
              unfold okTrail
              simp [hd, hrec]
      · have hrec := ih (okTrail_tail c t h)
        exact okTrail_cons_nonSp c _ (by simpa using hsp) hrec

theorem trimRight_lastNotWs : ∀ (l : List Char), lastNotWs (trimRightL l) = true := by
  intro l
  induction l with
  | nil => rfl
  | cons c t ih =>
    rw [trimRightL_cons]
    by_cases hz : trimRightL t = [] ∧ jsWs c = true
    · rw [if_pos hz]
      rfl
    · rw [if_neg hz]
      cases hr : trimRightL t with
      | nil =>
        have hnw : ¬ jsWs c = true := fun hw => hz ⟨hr, hw⟩
        simp [lastNotWs, hnw]
      | cons d r =>
        rw [hr] at ih
        unfold lastNotWs at ih ⊢
        rwa [List.getLast?_cons_cons]

theorem trimRight_id_of_lastNotWs : ∀ (l : List Char),
    lastNotWs l = true → trimRightL l = l := by
  intro l
  induction l with
  | nil => intro _; rfl
  | cons c t ih =>
    intro h
    rw [trimRightL_cons]
    cases t with
    | nil =>
      have : ¬ jsWs c = true := by
        unfold lastNotWs at h
        simp at h
        simp [h]
      rw [if_neg (fun hz => this hz.2)]
      rfl
    | cons d t' =>
      have ht : trimRightL (d :: t') = d :: t' := by
        refine ih ?_
        unfold lastNotWs at h ⊢
        rwa [List.getLast?_cons_cons] at h
      rw [if_neg (fun hz => by rw [ht] at hz; exact absurd hz.1 (by simp))]
      rw [ht]

theorem trimRight_append_ws : ∀ (l : List Char) (w : Char), jsWs w = true →
    trimRightL (l ++ [w]) = trimRightL l := by
  intro l w hw
  induction l with
  | nil =>
    simp [trimRightL, hw]
  | cons c t ih =>
    show trimRightL (c :: (t ++ [w])) = trimRightL (c :: t)
    rw [trimRightL_cons, trimRightL_cons, ih]

theorem dropWhile_head_false (p : Char → Bool) : ∀ (l : List Char) (c : Char)
    (r : List Char), l.dropWhile p = c :: r → p c = false := by
  intro l
  induction l with
  | nil => intro c r h; exact absurd h (by simp)
  | cons a t ih =>
    intro c r h
    rw [List.dropWhile_cons] at h
    by_cases ha : p a = true
    · rw [if_pos ha] at h
      exact ih c r h
    · rw [if_neg ha] at h
      injection h with h1 h2
      rw [← h1]
      exact Bool.not_eq_true _ ▸ ha

theorem okTrail_nl_prefix : ∀ (m : Nat) (x : List Char), okTrail x = true →
    okTrail (List.replicate m '\n' ++ x) = true := by
  intro m
  induction m with
  | zero => intro x h; simpa using h
  | succ n ih =>
    intro x h
    rw [List.replicate_succ, List.cons_append]
    exact okTrail_cons_nonSp _ _ (by decide) (ih x h)

theorem okTrail_emit (k : Nat) (rest : List Char) (h : okTrail rest = true) :
    okTrail (emitNl k rest) = true := by
  unfold emitNl
  by_cases h3 : 3 ≤ k
  · rw [if_pos h3]
    exact okTrail_cons_nonSp _ _ (by decide) (okTrail_cons_nonSp _ _ (by decide) h)
  · rw [if_neg h3]
    exact okTrail_nl_prefix k rest h

theorem collapseAux_cons (k : Nat) (c : Char) (t : List Char) :
    collapseAux k (c :: t) =
      if c = '\n' then collapseAux (k + 1) t else emitNl k (c :: collapseAux 0 t) := rfl

theorem noTriple_cons (j : Nat) (c : Char) (t : List Char) :
    noTriple j (c :: t) =
      if c = '\n' then (if 2 ≤ j then false else noTriple (j + 1) t)
      else noTriple 0 t := rfl

theorem okTrail_singleton (c : Char) : okTrail [c] = !isSpTab c := rfl

theorem okTrail_cons_cons (c d : Char) (t : List Char) :
    okTrail (c :: d :: t) = ((!isSpTab c || !(d = '\n')) && okTrail (d :: t)) := rfl

theorem collapseAux_cons_nonNl (c : Char) (t : List Char) (hc : ¬ c = '\n') :
    collapseAux 0 (c :: t) = c :: collapseAux 0 t := by
  rw [collapseAux_cons, if_neg hc]
  unfold emitNl
  rw [if_neg (by omega : ¬ 3 ≤ 0)]
  simp

/-- The newline-collapsing pass preserves the absence of trailing
spaces/tabs on lines. -/
theorem collapse_okTrail : ∀ (l : List Char) (k : Nat), okTrail l = true →
    okTrail (collapseAux k l) = true := by
  intro l
  induction l with
  | nil => intro k _; exact okTrail_emit k [] rfl
  | cons c t ih =>
    intro k h
    unfold collapseAux
    by_cases hc : c = '\n'
    · rw [if_pos hc]
      exact ih (k + 1) (okTrail_tail c t h)
    · rw [if_neg hc]
      refine okTrail_emit k _ ?_
      by_cases hsp : isSpTab c = true
      · -- okTrail (c :: t) with a space/tab head forces t = d :: t', d ≠ '\n'
        cases t with
        | nil =>
          rw [okTrail_singleton, hsp] at h
          exact absurd h (by decide)
        | cons d t' =>
          have hd : ¬ d = '\n' := by
            unfold okTrail at h
            by_contra hdn
            simp [hsp, hdn] at h
          rw [collapseAux_cons_nonNl d t' hd]
          show okTrail (c :: d :: collapseAux 0 t') = true
          have hrec : okTrail (d :: collapseAux 0 t') = true := by
            have := ih 0 (okTrail_tail c _ h)
            rwa [collapseAux_cons_nonNl d t' hd] at this
          cases hα : collapseAux 0 t' with
          | nil =>
            rw [hα] at hrec
            rw [okTrail_cons_cons]
            simp [hd, hrec]
          | cons e r =>
            rw [hα] at hrec
            rw [okTrail_cons_cons]
            simp [hd, hrec]
      · exact okTrail_cons_nonSp c _ (by simpa using hsp) (ih 0 (okTrail_tail c t h))

theorem noTriple_append_nl : ∀ (t : List Char) (j : Nat) (c : Char),
    noTriple j t = true → t.getLast? = some c → ¬ c = '\n' →
    noTriple j (t ++ ['\n']) = true := by
  intro t
  induction t with
  | nil => intro j c _ hL _; exact absurd hL (by simp)
  | cons d t' ih =>
    intro j c h hL hc
    cases t' with
    | nil =>
      have hdc : d = c := by simpa using hL
      subst hdc
      show noTriple j (d :: ['\n']) = true
      rw [noTriple_cons, if_neg hc]
      rw [noTriple_cons, if_pos rfl, if_neg (by omega : ¬ 2 ≤ 0)]
      rfl
    | cons e t'' =>
      rw [List.getLast?_cons_cons] at hL
      show noTriple j (d :: ((e :: t'') ++ ['\n'])) = true
      rw [noTriple_cons] at h ⊢
      by_cases hd : d = '\n'
      · rw [if_pos hd] at h ⊢
        by_cases h2 : 2 ≤ j
        · rw [if_pos h2] at h
          exact absurd h (by simp)
        · rw [if_neg h2] at h ⊢
          exact ih (j + 1) c h hL hc
      · rw [if_neg hd] at h ⊢
        exact ih 0 c h hL hc

theorem okTrail_append_nl : ∀ (t : List Char) (c : Char),
    okTrail t = true → t.getLast? = some c → isSpTab c = false →
    okTrail (t ++ ['\n']) = true := by
  intro t
  induction t with
  | nil => intro c _ hL _; exact absurd hL (by simp)
  | cons d t' ih =>
    intro c h hL hc
    cases t' with
    | nil =>
      have hdc : d = c := by simpa using hL
      subst hdc
      show okTrail (d :: ['\n']) = true
      rw [okTrail_cons_cons, okTrail_singleton]
      simp [hc]
      decide
    | cons e t'' =>
      rw [List.getLast?_cons_cons] at hL
      have hrec := ih c (okTrail_tail d _ h) hL hc
      have hde : (!isSpTab d || !(e = '\n')) = true := by
        rw [okTrail_cons_cons] at h
        exact ((Bool.and_eq_true _ _).mp h).1
      show okTrail (d :: e :: (t'' ++ ['\n'])) = true
      rw [okTrail_cons_cons]
      simp only [List.cons_append] at hrec
      rw [hrec]
      simp only [Bool.and_true]
      exact hde

theorem trimList_head_not_ws : ∀ (l : List Char) (c : Char) (r : List Char),
    trimList l = c :: r → jsWs c = false := by
  intro l c r h
  unfold trimList at h
  cases hD : l.dropWhile jsWs with
  | nil =>
    rw [hD] at h
    exact absurd h (by simp [trimRightL])
  | cons d dt =>
    rw [hD] at h
    rcases trimRight_head d dt with he | he
    · rw [he] at h
      exact absurd h (by simp)
    · rw [he] at h
      injection h with h1 _
      rw [← h1]
      exact dropWhile_head_false jsWs l d dt hD

theorem trimList_lastNotWs (l : List Char) : lastNotWs (trimList l) = true :=
  trimRight_lastNotWs _

theorem okTrail_trimList (l : List Char) (h : okTrail l = true) :
    okTrail (trimList l) = true :=
  okTrail_trimRight _ (okTrail_dropWhile jsWs l h)

theorem noTriple_trimList (l : List Char) (h : noTriple 0 l = true) :
    noTriple 0 (trimList l) = true :=
  noTriple_trimRight _ 0 (noTriple_dropWhile jsWs l h)

theorem exists_getLast?_of_ne_nil : ∀ (l : List Char), ¬ l = [] →
    ∃ c, l.getLast? = some c := by
  intro l h
  cases hL : l.getLast? with
  | some c => exact ⟨c, rfl⟩
  | none =>
    rw [List.getLast?_eq_none_iff] at hL
    exact absurd hL h

theorem lastNotWs_spec (l : List Char) (c : Char) (hL : l.getLast? = some c)
    (h : lastNotWs l = true) : jsWs c = false := by
  unfold lastNotWs at h
  rw [hL] at h
  simpa using h

/-- The result of `cleanMarkList` on a nonempty input is either empty or
the trimmed core `C` followed by exactly one newline. -/
theorem clean_shape (l : List Char) (hne : ¬ l = []) :
    (cleanMarkList l = [] ∧ trimList (stripTrailing (collapseNl l)) = []) ∨
    (∃ C, trimList (stripTrailing (collapseNl l)) = C ∧ ¬ C = [] ∧
      cleanMarkList l = C ++ ['\n']) := by
  unfold cleanMarkList
  rw [if_neg hne]
  try dsimp only
  by_cases hC : trimList (stripTrailing (collapseNl l)) = []
  · rw [if_pos hC]
    exact Or.inl ⟨hC, hC⟩
  · rw [if_neg hC]
    obtain ⟨e, hL⟩ := exists_getLast?_of_ne_nil _ hC
    have hws : jsWs e = false := lastNotWs_spec _ e hL (trimList_lastNotWs _)
    have henl : ¬ (trimList (stripTrailing (collapseNl l))).getLast? = some '\n' := by
      rw [hL]
      intro hcon
      have he : e = '\n' := by injection hcon
      rw [he] at hws
      exact absurd hws (by decide)
    rw [if_neg henl]
    exact Or.inr ⟨_, rfl, hC, rfl⟩

/-- C10 (amended): for every string, `cleanMarkdown`'s result is either
empty or ends with exactly one trailing newline, and no line of the result
ends in a space or tab.  The remaining two properties of the claim hold
under the proviso that no line of the *input* ends in a space or tab: then
the result also contains no run of three or more consecutive newlines and
`cleanMarkdown` is idempotent.  (Without the proviso both fail — the
trailing-whitespace strip runs *after* the newline collapse and can create
a fresh `\n\n\n` run, see the counterexample.) -/
theorem cleanMarkdown_spec (s : String) :
    (cleanMarkdown s = "" ∨
      ((cleanMarkdown s).data.getLast? = some '\n' ∧
        ¬ (cleanMarkdown s).data.dropLast.getLast? = some '\n')) ∧
    okTrail (cleanMarkdown s).data = true ∧
    (okTrail s.data = true →
      noTriple 0 (cleanMarkdown s).data = true ∧
      cleanMarkdown (cleanMarkdown s) = cleanMarkdown s) := by
  have hdata : (cleanMarkdown s).data = cleanMarkList s.data := rfl
  by_cases hne : s.data = []
  · have h0 : cleanMarkList s.data = [] := by rw [hne]; rfl
    refine ⟨Or.inl ?_, ?_, fun _ => ⟨?_, ?_⟩⟩
    · show (⟨cleanMarkList s.data⟩ : String) = ""
      rw [h0]
      try rfl
    · rw [hdata, h0]
      try rfl
    · rw [hdata, h0]
      try rfl
    · have hlist : cleanMarkList (cleanMarkList s.data) = cleanMarkList s.data := by
        rw [h0]
        try rfl
      exact congrArg String.mk hlist
  · rcases clean_shape s.data hne with ⟨hres, _⟩ | ⟨C, hCdef, hCne, hres⟩
    · refine ⟨Or.inl ?_, ?_, fun _ => ⟨?_, ?_⟩⟩
      · show (⟨cleanMarkList s.data⟩ : String) = ""
        rw [hres]
        try rfl
      · rw [hdata, hres]
        try rfl
      · rw [hdata, hres]
        try rfl
      · have hlist : cleanMarkList (cleanMarkList s.data) = cleanMarkList s.data := by
          rw [hres]
          try rfl
        exact congrArg String.mk hlist
    · obtain ⟨e, hL⟩ := exists_getLast?_of_ne_nil C hCne
      have hlnw : lastNotWs C = true := by
        rw [← hCdef]
        exact trimList_lastNotWs _
      have hws : jsWs e = false := lastNotWs_spec C e hL hlnw
      have hnl : ¬ e = '\n' := by
        intro he
        rw [he] at hws
        exact absurd hws (by decide)
      have hsp : isSpTab e = false := by
        cases hα : isSpTab e
        · rfl
        · have h1 := spTab_ws e hα
          rw [hws] at h1
          exact absurd h1 (by decide)
      have hokC : okTrail C = true := by
        rw [← hCdef]
        exact okTrail_trimList _ (strip_okTrail _ [] (by simp))
      refine ⟨Or.inr ?_, ?_, fun hok => ?_⟩
      · rw [hdata, hres]
        refine ⟨List.getLast?_concat _, ?_⟩
        rw [List.dropLast_concat, hL]
        intro hcon
        exact hnl (by injection hcon)
      · rw [hdata, hres]
        exact okTrail_append_nl C e hokC hL hsp
      · have hA : noTriple 0 (collapseNl s.data) = true := collapse_noTriple _ 0
        have hAok : okTrail (collapseNl s.data) = true := collapse_okTrail _ 0 hok
        have hstrip : stripTrailing (collapseNl s.data) = collapseNl s.data := by
          have := strip_id_of_okTrail (collapseNl s.data) [] (by simp) (by simpa using hAok)
          simpa using this
        have hCnoT : noTriple 0 C = true := by
          rw [← hCdef, hstrip]
          exact noTriple_trimList _ hA
        have hrnoT : noTriple 0 (C ++ ['\n']) = true :=
          noTriple_append_nl C 0 e hCnoT hL hnl
        have hrok : okTrail (C ++ ['\n']) = true := okTrail_append_nl C e hokC hL hsp
        refine ⟨?_, ?_⟩
        · rw [hdata, hres]
          exact hrnoT
        · have hrne : ¬ (C ++ ['\n'] : List Char) = [] := by simp
          obtain ⟨c0, C', hC0⟩ : ∃ c0 C', C = c0 :: C' := by
            cases C with
            | nil => exact absurd rfl hCne
            | cons a b => exact ⟨a, b, rfl⟩
          have hhead : jsWs c0 = false :=
            trimList_head_not_ws (stripTrailing (collapseNl s.data)) c0 C'
              (by rw [hCdef, hC0])
          have hclean_r : cleanMarkList (C ++ ['\n']) = C ++ ['\n'] := by
            unfold cleanMarkList
            rw [if_neg hrne]
            try dsimp only
            have h1 : collapseNl (C ++ ['\n']) = C ++ ['\n'] := collapseNl_id _ hrnoT
            have h2 : stripTrailing (C ++ ['\n']) = C ++ ['\n'] := by
              have := strip_id_of_okTrail (C ++ ['\n']) [] (by simp) (by simpa using hrok)
              simpa using this
            rw [h1, h2]
            have hdw : (C ++ ['\n']).dropWhile jsWs = C ++ ['\n'] := by
              rw [hC0]
              simp only [List.cons_append, List.dropWhile_cons, hhead]
              simp
            have htr : trimList (C ++ ['\n']) = C := by
              unfold trimList
              rw [hdw, trimRight_append_ws C '\n' (by decide)]
              exact trimRight_id_of_lastNotWs C hlnw
            rw [htr]
            rw [if_neg hCne]
            rw [if_neg (show ¬ C.getLast? = some '\n' by
              rw [hL]
              intro hcon
              exact hnl (by injection hcon))]
          have hlist : cleanMarkList (cleanMarkList s.data) = cleanMarkList s.data := by
            rw [hres]
            exact hclean_r
          exact congrArg String.mk hlist

/-- C10 witness: a concrete input with a quadruple-newline run and no
trailing whitespace; the cleaned result has no triple newline and a second
application is the identity. -/
theorem cleanMarkdown_spec_witness :
    okTrail ("a\n\n\n\nb").data = true ∧
    (noTriple 0 (cleanMarkdown "a\n\n\n\nb").data = true ∧
      cleanMarkdown (cleanMarkdown "a\n\n\n\nb") = cleanMarkdown "a\n\n\n\nb") :=
  ⟨by decide, (cleanMarkdown_spec "a\n\n\n\nb").2.2 (by decide)⟩

/-- C10 counterexample: for the input `"a \n \n \nb"` — three line ends
carrying trailing spaces — the trailing-whitespace strip (which runs
*after* the newline collapse) glues the newlines into a fresh `\n\n\n`
run, so the result violates the no-triple-newline property and a second
`cleanMarkdown` application changes it: `cleanMarkdown` is not
idempotent. -/
theorem cleanMarkdown_not_idempotent :
    cleanMarkdown (cleanMarkdown "a \n \n \nb") ≠ cleanMarkdown "a \n \n \nb" ∧
    noTriple 0 (cleanMarkdown "a \n \n \nb").data = false := by
  decide

end Doc2ai
